import Mathlib

/-!
Shallow embedding of `src/GenericTree.h`: a generic, ordered, rooted
multi-way tree container built on raw pointers.

Pointers are modelled as indices (`Nat`) into an explicit heap of cells.
A cell holds `Option (TreeNode T)`: `none` means the cell was freed (or
never allocated).  The C++ `TreeNode*` values that may be null are
modelled as `Option Nat`.  The `std::stack`/`std::queue` driven loops are
modelled with an explicit fuel parameter; a result of `none` for a whole
operation means the run did not complete within the fuel, or performed an
undefined read (dereferencing a dangling pointer), neither of which can
happen on well-formed trees.  Output written to `std::cerr` is collected
as a list of lines; output written to the `std::ostream& os` of `Print`
is collected as a `String`.
-/

/-- One tree node, as in `GenericTree<T>::TreeNode`: a non-owning parent
pointer (`nullptr` = `none`), an ordered vector of child pointers (entries
may be null tombstones), and the payload. -/
structure TreeNode (T : Type) where
  parentPtr : Option Nat
  childrenPtrs : List (Option Nat)
  data : T
deriving Repr, DecidableEq

/-- The heap: cell `i` holds the node at address `i`, or `none` if that
address is unallocated / freed. -/
structure Heap (T : Type) where
  cells : List (Option (TreeNode T))
deriving Repr, DecidableEq

/-- Read the cell at index `p` (out of range reads give `none`). -/
def lookupCell {T : Type} : List (Option (TreeNode T)) → Nat → Option (TreeNode T)
  | [], _ => none
  | c :: _, 0 => c
  | _ :: r, n+1 => lookupCell r n

/-- Write the cell at index `p` (out of range writes are dropped). -/
def setCell {T : Type} : List (Option (TreeNode T)) → Nat → Option (TreeNode T) → List (Option (TreeNode T))
  | [], _, _ => []
  | _ :: r, 0, v => v :: r
  | c :: r, n+1, v => c :: setCell r n v

/-- Dereference pointer `p` in heap `h`. -/
def Heap.deref {T : Type} (h : Heap T) (p : Nat) : Option (TreeNode T) :=
  lookupCell h.cells p

/-- Overwrite the cell at address `p`. -/
def Heap.write {T : Type} (h : Heap T) (p : Nat) (v : Option (TreeNode T)) : Heap T :=
  ⟨setCell h.cells p v⟩

/-- `delete p`: free the cell at address `p`. -/
def Heap.free {T : Type} (h : Heap T) (p : Nat) : Heap T :=
  h.write p none

/-- `new TreeNode(...)`: allocate a fresh cell, returning its address. -/
def Heap.alloc {T : Type} (h : Heap T) (v : TreeNode T) : Heap T × Nat :=
  (⟨h.cells ++ [some v]⟩, h.cells.length)

/-- The `GenericTree<T>` object itself: the debug flag and the owned root
pointer (`nullptr` = `none`).  The node cells live in the shared heap. -/
structure GenericTree (T : Type) where
  showDebugMessages : Bool
  rootNodePtr : Option Nat
deriving Repr, DecidableEq

/-- The exceptions the container can throw, one constructor per `throw`
site in the source, plus `danglingRead` marking an undefined read that
the C++ could not detect (dereferencing a freed pointer). -/
inductive TreeError where
  /-- `createRoot`: "Tried to createRoot when root already exists". -/
  | alreadyInitialized
  /-- `deleteSubtree`: "Tried to delete a node from a different tree". -/
  | crossTree
  /-- `deleteSubtree`: "Target node to delete was not listed as a child of its parent". -/
  | notAChild
  /-- `compress`: "Error: Compression exploration queued a null pointer". -/
  | compressNullQueued
  /-- `clear`: "clear() detected that deleteSubtree() had not reset rootNodePtr". -/
  | clearRootNotReset
  /-- Not a C++ exception: an undefined read through a dangling pointer. -/
  | danglingRead
deriving Repr, DecidableEq

/-- `GenericTree<T>::createRoot`. -/
def createRoot {T : Type} (h : Heap T) (tr : GenericTree T) (rootData : T) :
    Except TreeError (Heap T × GenericTree T × Nat) :=
  match tr.rootNodePtr with
  | some _ => .error .alreadyInitialized
  | none =>
    let (h', p) := h.alloc ⟨none, [], rootData⟩
    .ok (h', { tr with rootNodePtr := some p }, p)

/-- `TreeNode::addChild`: allocate a child of `p` holding `childData`,
link its parent pointer to `p` and append it to `p`'s children. -/
def TreeNode.addChild {T : Type} (h : Heap T) (p : Nat) (childData : T) :
    Option (Heap T × Nat) :=
  match h.deref p with
  | none => none
  | some nd =>
    let (h', c) := h.alloc ⟨some p, [], childData⟩
    some (h'.write p (some { nd with childrenPtrs := nd.childrenPtrs ++ [some c] }), c)

/-- The walk-back loop at the top of `deleteSubtree`: follow parent
pointers from `p` until a node with no parent is reached.  Returns `none`
on fuel exhaustion or a dangling read. -/
def walkBack {T : Type} (h : Heap T) : Nat → Nat → Option Nat
  | 0, _ => none
  | fuel+1, p =>
    match h.deref p with
    | none => none
    | some nd =>
      match nd.parentPtr with
      | none => some p
      | some q => walkBack h fuel q

/-- The detach loop of `deleteSubtree`: scan the children for the first
entry equal to `some target` and replace it with a null tombstone;
`none` if the target is not listed (the corruption case). -/
def detachChild : List (Option Nat) → Nat → Option (List (Option Nat))
  | [], _ => none
  | c :: cs, target =>
    if c = some target then
      some (none :: cs)
    else
      (detachChild cs target).map (fun cs' => c :: cs')

/-- One `std::cerr` trace line of the explore / delete loops:
`"Exploring node: "` or `"Deleting node: "` followed by the node's data
or `"[null]"`. -/
def traceLine {T : Type} (str : T → String) (tag : String) (nd : Option (TreeNode T)) : String :=
  tag ++ (match nd with
          | some nd => str nd.data
          | none => "[null]")

/-- The explore loop of `deleteSubtree`: a LIFO stack of (possibly null)
node pointers; each popped non-null node is recorded for deletion and its
children (including null tombstones) are pushed left-to-right.  Returns
the recorded list in exploration order together with the accumulated
`std::cerr` lines, or `none` on fuel exhaustion / dangling read. -/
def exploreLoop {T : Type} (str : T → String) (dbg : Bool) (h : Heap T) :
    Nat → List (Option Nat) → List Nat → List String → Option (List Nat × List String)
  | _, [], acc, log => some (acc, log)
  | 0, _ :: _, _, _ => none
  | fuel+1, cur :: rest, acc, log =>
    let log := if dbg then log ++ [traceLine str "Exploring node: " (cur.bind h.deref)] else log
    match cur with
    | none => exploreLoop str dbg h fuel rest acc log
    | some p =>
      match h.deref p with
      | none => none
      | some nd =>
        exploreLoop str dbg h fuel (nd.childrenPtrs.reverse ++ rest) (acc ++ [p]) log

/-- The delete loop of `deleteSubtree`: free the recorded nodes one at a
time (the caller passes the stack contents, i.e. reverse exploration
order).  Freeing an already-freed cell is a double delete, undefined in
C++, so it yields `none`. -/
def releaseLoop {T : Type} (str : T → String) (dbg : Bool) :
    List Nat → Heap T → List String → Option (Heap T × List String)
  | [], h, log => some (h, log)
  | p :: rest, h, log =>
    match h.deref p with
    | none => none
    | some nd =>
      let log := if dbg then log ++ [traceLine str "Deleting node: " (some nd)] else log
      releaseLoop str dbg rest (h.free p) log

/-- The outcome of a `deleteSubtree` / `clear` call: the error thrown (if
any), the heap and tree object at the moment the call returned or threw,
the `std::cerr` trace lines, and the addresses passed to `delete` in
order (the release events, observable through an allocation counter). -/
structure DelResult (T : Type) where
  err : Option TreeError
  heap : Heap T
  tree : GenericTree T
  log : List String
  released : List Nat
deriving Repr, DecidableEq

/-- The enumerate-then-release half of `deleteSubtree` (everything after
the detach step): fully explore the subtree under `target` in the
post-detach heap `h1`, then free every recorded node in reverse
enumeration order, then reset the root pointer if the target was the
whole tree's root. -/
def deletePhases {T : Type} (str : T → String) (fuel : Nat) (h1 : Heap T)
    (tr : GenericTree T) (target : Nat) (targetingWholeTreeRoot : Bool) :
    Option (DelResult T) :=
  match exploreLoop str tr.showDebugMessages h1 fuel [some target] [] [] with
  | none => none
  | some (toDelete, log1) =>
    match releaseLoop str tr.showDebugMessages toDelete.reverse h1 log1 with
    | none => none
    | some (h2, log2) =>
      some ⟨none, h2,
            if targetingWholeTreeRoot then { tr with rootNodePtr := none } else tr,
            log2, toDelete.reverse⟩

/-- `GenericTree<T>::deleteSubtree`.  A null target is a no-op; a target
whose ultimate ancestor is not this tree's root throws the cross-tree
error; a target missing from its parent's child list throws the
corruption error; otherwise the target's slot in its parent is replaced
by a null tombstone, the subtree is fully enumerated, every enumerated
node is freed (in reverse enumeration order), and the root pointer is
reset if the target was the root. -/
def deleteSubtree {T : Type} (str : T → String) (fuel : Nat) (h : Heap T)
    (tr : GenericTree T) (targetRoot : Option Nat) : Option (DelResult T) :=
  match targetRoot with
  | none => some ⟨none, h, tr, [], []⟩
  | some target =>
    match walkBack h fuel target with
    | none => none
    | some ultimate =>
      if tr.rootNodePtr = some ultimate then
        let targetingWholeTreeRoot : Bool := tr.rootNodePtr == some target
        match h.deref target with
        | none => none
        | some tnd =>
          match tnd.parentPtr with
          | none => deletePhases str fuel h tr target targetingWholeTreeRoot
          | some par =>
            match h.deref par with
            | none => none
            | some pnd =>
              match detachChild pnd.childrenPtrs target with
              | none => some ⟨some .notAChild, h, tr, [], []⟩
              | some cs' =>
                deletePhases str fuel
                  (h.write par (some { pnd with childrenPtrs := cs' }))
                  tr target targetingWholeTreeRoot
      else
        some ⟨some .crossTree, h, tr, [], []⟩

/-- `GenericTree<T>::clear`: delete the whole tree through
`deleteSubtree(rootNodePtr)` and check that the root pointer was reset. -/
def GenericTree.clear {T : Type} (str : T → String) (fuel : Nat) (h : Heap T)
    (tr : GenericTree T) : Option (DelResult T) :=
  match deleteSubtree str fuel h tr tr.rootNodePtr with
  | none => none
  | some res =>
    if res.err.isSome then some res
    else if res.tree.rootNodePtr ≠ none then
      some { res with err := some .clearRootNotReset }
    else
      some res

/-- The BFS loop of `GenericTree<T>::compress`: dequeue a pointer (null
is the defensive corruption case), rebuild the node's children keeping
only the non-null entries, and enqueue exactly those survivors. -/
def compressLoop {T : Type} :
    Nat → Heap T → List (Option Nat) → Option (Option TreeError × Heap T)
  | _, h, [] => some (none, h)
  | 0, _, _ :: _ => none
  | fuel+1, h, frontPtr :: queueRest =>
    match frontPtr with
    | none => some (some .compressNullQueued, h)
    | some p =>
      match h.deref p with
      | none => none
      | some nd =>
        let compressedChildrenPtrs := nd.childrenPtrs.filter Option.isSome
        compressLoop fuel
          (h.write p (some { nd with childrenPtrs := compressedChildrenPtrs }))
          (queueRest ++ compressedChildrenPtrs)

/-- `GenericTree<T>::compress`: no-op on an empty tree, else run the BFS
sweep from the root. -/
def compress {T : Type} (fuel : Nat) (h : Heap T) (tr : GenericTree T) :
    Option (Option TreeError × Heap T) :=
  match tr.rootNodePtr with
  | none => some (none, h)
  | some r => compressLoop fuel h [some r]

/-- One margin row of `Print` (the inner `for (stemIt ...)` loop): each
flag prints `"|"` or `" "`; interior columns are padded with two spaces;
the last column of the last row prints the corner `"_ "`, and of earlier
rows a stem-plus-newline or a bare newline.  An empty margin prints
nothing. -/
def marginCols (isLastRow : Bool) : List Bool → String
  | [] => ""
  | b :: rest =>
    let stemSymbol := if b then "|" else " "
    match rest with
    | [] =>
      if isLastRow then stemSymbol ++ "_ "
      else if b then stemSymbol ++ "\n"
      else "\n"
    | _ :: _ => stemSymbol ++ "  " ++ marginCols isLastRow rest

/-- A frame of `Print`'s explore stack, combining the four parallel C++
stacks: the node pointer, its depth, its current margin and its trailing
margin. -/
def PrintFrame : Type := Option Nat × Nat × List Bool × List Bool

/-- Frames pushed for a node's children (the C++ reverse iteration pushes
right-to-left so the leftmost child ends on top; here the resulting
stack segment is listed top-first, i.e. left-to-right).  Every child's
current margin gains a stem flag; the rightmost child's trailing margin
gains a blank, every other child's a stem. -/
def childFrames (depth : Nat) (trailingMargin : List Bool) :
    List (Option Nat) → List PrintFrame
  | [] => []
  | c :: rest =>
    match rest with
    | [] => [(c, depth+1, trailingMargin ++ [true], trailingMargin ++ [false])]
    | _ :: _ =>
      (c, depth+1, trailingMargin ++ [true], trailingMargin ++ [true]) ::
        childFrames depth trailingMargin rest

/-- The main loop of `Print`: pop a frame; with debugging the primary
stream gets `"Depth: <n>"` (no newline) and `std::cerr` gets
`" Data: <value>\n"`; without it the primary stream gets the two margin
rows followed by the value line.  A non-null node with children pushes
its child frames. -/
def printLoop {T : Type} (str : T → String) (dbg : Bool) (h : Heap T) :
    Nat → List PrintFrame → String → String → Option (String × String)
  | _, [], os, cerr => some (os, cerr)
  | 0, _ :: _, _, _ => none
  | fuel+1, (cur, curDepth, curMargin, trailingMargin) :: rest, os, cerr =>
    let emit : String → String × String := fun s =>
      if dbg then
        (os ++ "Depth: " ++ toString curDepth, cerr ++ " Data: " ++ s ++ "\n")
      else
        (os ++ marginCols false curMargin ++ marginCols true curMargin ++ s ++ "\n", cerr)
    match cur with
    | none =>
      let (os, cerr) := emit "[null]"
      printLoop str dbg h fuel rest os cerr
    | some p =>
      match h.deref p with
      | none => none
      | some nd =>
        let (os, cerr) := emit (str nd.data)
        if nd.childrenPtrs.length > 0 then
          printLoop str dbg h fuel (childFrames curDepth trailingMargin nd.childrenPtrs ++ rest) os cerr
        else
          printLoop str dbg h fuel rest os cerr

/-- `GenericTree<T>::Print`: the empty tree prints the fixed marker; a
non-empty tree runs the stack-driven traversal from the root at depth 0
with empty margins.  Result: (primary stream output, `std::cerr` output). -/
def Print {T : Type} (str : T → String) (fuel : Nat) (h : Heap T)
    (tr : GenericTree T) : Option (String × String) :=
  match tr.rootNodePtr with
  | none => some ("[empty tree]\n", "")
  | some r => printLoop str tr.showDebugMessages h fuel [(some r, 0, [], [])] "" ""

/-!
Shapes: to reason about the pointer structure we describe a well-formed
subtree by an inductive "shape" mirroring the heap layout: a node id plus
the ordered list of child slots, where a `none` slot is a null tombstone.
-/

/-- The shape of a (sub)tree in the heap: the address of its root and the
shapes held in its children slots (`none` = tombstone slot). -/
inductive RTree : Type where
  | node (id : Nat) (children : List (Option RTree))

/-- The address of a shape's root node. -/
def RTree.id : RTree → Nat
  | .node i _ => i

/-- The pointer stored in a child slot described by an optional shape. -/
def optId : Option RTree → Option Nat
  | none => none
  | some t => some t.id

/-- The number of slots in a forest, counting tombstone slots: one per
list entry, plus recursively the slots inside every subtree.  This is
exactly the number of iterations a stack/queue driven traversal of the
forest performs, hence the fuel measure. -/
def forestSize : List (Option RTree) → Nat
  | [] => 0
  | none :: r => 1 + forestSize r
  | some (.node _ cs) :: r => 1 + forestSize cs + forestSize r

/-- The addresses of all (non-tombstone) nodes of a forest, in preorder
left-to-right. -/
def forestIds : List (Option RTree) → List Nat
  | [] => []
  | none :: r => forestIds r
  | some (.node i cs) :: r => i :: (forestIds cs ++ forestIds r)

/-- The addresses of all nodes of a subtree shape. -/
def RTree.ids (t : RTree) : List Nat :=
  forestIds [some t]

/-- The subtrees actually present in a list of child slots (tombstones
dropped), in order. -/
def forestKeep : List (Option RTree) → List RTree
  | [] => []
  | none :: r => forestKeep r
  | some t :: r => t :: forestKeep r

/-- The shape a forest has after `compress`: tombstone slots removed at
every level, order and nodes preserved. -/
def compressShapeList : List (Option RTree) → List (Option RTree)
  | [] => []
  | none :: r => compressShapeList r
  | some (.node i cs) :: r => some (.node i (compressShapeList cs)) :: compressShapeList r

/-- The shape of a subtree after `compress`. -/
def compressShape : RTree → RTree
  | .node i cs => .node i (compressShapeList cs)

/-- `true` iff no children list anywhere in the forest contains a
tombstone slot. -/
def forestNoHole : List (Option RTree) → Bool
  | [] => true
  | none :: _ => false
  | some (.node _ cs) :: r => forestNoHole cs && forestNoHole r

/-- A forest of child slots is laid out in heap `h` under parent pointer
`pp`: every non-tombstone slot's node exists, stores `pp` as its parent,
stores exactly the slot pointers of its child shapes, and recursively
lays out its own children under itself. -/
def modelsF {T : Type} (h : Heap T) (pp : Option Nat) : List (Option RTree) → Bool
  | [] => true
  | none :: r => modelsF h pp r
  | some (.node i cs) :: r =>
    (match h.deref i with
     | none => false
     | some nd =>
       (nd.parentPtr == pp) && (nd.childrenPtrs == cs.map optId) && modelsF h (some i) cs)
    && modelsF h pp r

/-- Like `modelsF` but without any constraint on parent pointers: the
part of the layout that `deleteSubtree`'s enumeration and `compress`
actually read. -/
def modelsC {T : Type} (h : Heap T) : List (Option RTree) → Bool
  | [] => true
  | none :: r => modelsC h r
  | some (.node i cs) :: r =>
    (match h.deref i with
     | none => false
     | some nd => (nd.childrenPtrs == cs.map optId) && modelsC h cs)
    && modelsC h r

/-- `st` occurs as a subtree (possibly the whole tree) of `t`. -/
inductive InTree : RTree → RTree → Prop where
  | refl (t : RTree) : InTree t t
  | child {st c : RTree} {i : Nat} {cs : List (Option RTree)} :
      some c ∈ cs → InTree st c → InTree st (.node i cs)

/-- The whole-tree well-formedness used by the claims: `tr`'s root points
at the root of shape `t`, the root has no parent, the heap lays the tree
out exactly as `t`, and no address occurs twice in the tree. -/
def WF {T : Type} (h : Heap T) (tr : GenericTree T) (t : RTree) : Prop :=
  tr.rootNodePtr = some t.id ∧ modelsF h none [some t] = true ∧ t.ids.Nodup

theorem forestSize_append (a b : List (Option RTree)) :
    forestSize (a ++ b) = forestSize a + forestSize b := by
  induction a with
  | nil => simp [forestSize]
  | cons c r ih =>
    match c with
    | none => simp [forestSize, ih]; omega
    | some (.node i cs) => simp [forestSize, ih]; omega

theorem forestSize_reverse (a : List (Option RTree)) :
    forestSize a.reverse = forestSize a := by
  induction a with
  | nil => rfl
  | cons c r ih =>
    match c with
    | none =>
      simp only [List.reverse_cons, forestSize_append, ih, forestSize]
      omega
    | some (.node i cs) =>
      simp only [List.reverse_cons, forestSize_append, ih, forestSize]
      omega

/-- The order in which `deleteSubtree`'s explore loop records the nodes
of a pending stack of shapes: pop the top slot; a tombstone is skipped, a
node is recorded and its child slots are pushed so that the rightmost
child is processed first. -/
def exploreSpec : List (Option RTree) → List Nat
  | [] => []
  | none :: rest => exploreSpec rest
  | some (.node i cs) :: rest => i :: exploreSpec (cs.reverse ++ rest)
termination_by pend => forestSize pend
decreasing_by
  all_goals simp only [forestSize, forestSize_append, forestSize_reverse]
  all_goals omega

/-- The cell transform `compress` applies at every visited node: rebuild
the children keeping only non-null entries. -/
def compressCell {T : Type} (c : Option (TreeNode T)) : Option (TreeNode T) :=
  c.map (fun nd => { nd with childrenPtrs := nd.childrenPtrs.filter Option.isSome })

/-- Concatenate a list of strings (used to describe `Print`'s output). -/
def joinAll : List String → String
  | [] => ""
  | s :: r => s ++ joinAll r

/-!
Concrete states used to instantiate the theorems: a four-node tree
`A(0) -> [B(1) -> [E(3)], C(2)]`, a tree with a tombstone, a heap holding
two separate trees, a single-node tree, and a deliberately corrupted
linkage.
-/

def heapW : Heap String :=
  ⟨[some ⟨none, [some 1, some 2], "A"⟩,
    some ⟨some 0, [some 3], "B"⟩,
    some ⟨some 0, [], "C"⟩,
    some ⟨some 1, [], "E"⟩]⟩

def treeW : GenericTree String := ⟨false, some 0⟩

def shapeW : RTree := .node 0 [some (.node 1 [some (.node 3 [])]), some (.node 2 [])]

def shapeB : RTree := .node 1 [some (.node 3 [])]

def heapV : Heap String :=
  ⟨[some ⟨none, [none, some 2], "A"⟩, none, some ⟨some 0, [], "C"⟩]⟩

def treeV : GenericTree String := ⟨false, some 0⟩

def shapeV : RTree := .node 0 [none, some (.node 2 [])]

def heapVc : Heap String :=
  ⟨[some ⟨none, [some 2], "A"⟩, none, some ⟨some 0, [], "C"⟩]⟩

def heap2 : Heap String :=
  ⟨[some ⟨none, [], "A"⟩, some ⟨none, [some 2], "R"⟩, some ⟨some 1, [], "S"⟩]⟩

def treeA2 : GenericTree String := ⟨false, some 0⟩

def treeB2 : GenericTree String := ⟨false, some 1⟩

def shapeB2 : RTree := .node 1 [some (.node 2 [])]

def heapX : Heap String := ⟨[some ⟨none, [], "X"⟩]⟩

def treeX : GenericTree String := ⟨false, some 0⟩

def emptyHeap : Heap String := ⟨[]⟩

def emptyTree : GenericTree String := ⟨false, none⟩

def heapC : Heap String := ⟨[some ⟨none, [none], "A"⟩, some ⟨some 0, [], "B"⟩]⟩

def treeC : GenericTree String := ⟨false, some 0⟩

/-! Basic heap lemmas. -/

theorem lookupCell_setCell_ne {T : Type} (l : List (Option (TreeNode T))) (p q : Nat)
    (v : Option (TreeNode T)) (hpq : p ≠ q) :
    lookupCell (setCell l p v) q = lookupCell l q := by
  induction l generalizing p q with
  | nil => simp [setCell]
  | cons c r ih =>
    match p, q with
    | 0, 0 => exact absurd rfl hpq
    | 0, q+1 => simp [setCell, lookupCell]
    | p+1, 0 => simp [setCell, lookupCell]
    | p+1, q+1 => simpa [setCell, lookupCell] using ih p q (by omega)

theorem lookupCell_setCell_self {T : Type} (l : List (Option (TreeNode T))) (p : Nat)
    (v : Option (TreeNode T)) (nd : TreeNode T) (hp : lookupCell l p = some nd) :
    lookupCell (setCell l p v) p = v := by
  induction l generalizing p with
  | nil => simp [lookupCell] at hp
  | cons c r ih =>
    match p with
    | 0 => simp [setCell, lookupCell]
    | p+1 => simpa [setCell, lookupCell] using ih p (by simpa [lookupCell] using hp)

theorem setCell_lookup_self {T : Type} (l : List (Option (TreeNode T))) (p : Nat)
    (nd : TreeNode T) (hp : lookupCell l p = some nd) :
    setCell l p (some nd) = l := by
  induction l generalizing p with
  | nil => simp [lookupCell] at hp
  | cons c r ih =>
    match p with
    | 0 => simp [lookupCell] at hp; simp [setCell, hp]
    | p+1 => simp [setCell, ih p (by simpa [lookupCell] using hp)]

theorem Heap.deref_write_ne {T : Type} (h : Heap T) {p q : Nat} (v : Option (TreeNode T))
    (hpq : p ≠ q) : (h.write p v).deref q = h.deref q :=
  lookupCell_setCell_ne h.cells p q v hpq

theorem Heap.deref_write_self {T : Type} (h : Heap T) {p : Nat} (v : Option (TreeNode T))
    {nd : TreeNode T} (hp : h.deref p = some nd) : (h.write p v).deref p = v :=
  lookupCell_setCell_self h.cells p v nd hp

theorem Heap.write_self {T : Type} (h : Heap T) {p : Nat} {nd : TreeNode T}
    (hp : h.deref p = some nd) : h.write p (some nd) = h := by
  show Heap.mk (setCell h.cells p (some nd)) = h
  rw [setCell_lookup_self h.cells p nd hp]

theorem Heap.deref_free_ne {T : Type} (h : Heap T) {p q : Nat} (hpq : p ≠ q) :
    (h.free p).deref q = h.deref q :=
  h.deref_write_ne none hpq

theorem Heap.deref_free_self {T : Type} (h : Heap T) {p : Nat} {nd : TreeNode T}
    (hp : h.deref p = some nd) : (h.free p).deref p = none :=
  h.deref_write_self none hp

/-! Forest induction and basic forest lemmas. -/

theorem forestInd (P : List (Option RTree) → Prop) (hnil : P [])
    (hhole : ∀ r, P r → P (none :: r))
    (hnode : ∀ i cs r, P cs → P r → P (some (.node i cs) :: r)) :
    ∀ f, P f := by
  have key : ∀ n f, forestSize f ≤ n → P f := by
    intro n
    induction n with
    | zero =>
      intro f hf
      match f with
      | [] => exact hnil
      | none :: r => simp [forestSize] at hf
      | some (.node i cs) :: r => simp [forestSize] at hf
    | succ n ih =>
      intro f hf
      match f with
      | [] => exact hnil
      | none :: r =>
        simp only [forestSize] at hf
        exact hhole r (ih r (by omega))
      | some (.node i cs) :: r =>
        simp only [forestSize] at hf
        exact hnode i cs r (ih cs (by omega)) (ih r (by omega))
  exact fun f => key (forestSize f) f le_rfl

theorem forestIds_append (a b : List (Option RTree)) :
    forestIds (a ++ b) = forestIds a ++ forestIds b := by
  induction a with
  | nil => simp [forestIds]
  | cons c r ih =>
    match c with
    | none => simpa [forestIds] using ih
    | some (.node i cs) => simp [forestIds, ih]

theorem ids_node (i : Nat) (cs : List (Option RTree)) :
    (RTree.node i cs).ids = i :: forestIds cs := by
  simp [RTree.ids, forestIds]

theorem forestIds_reverse_perm (l : List (Option RTree)) :
    (forestIds l.reverse).Perm (forestIds l) := by
  induction l with
  | nil => simp
  | cons c r ih =>
    have step : (forestIds (r.reverse ++ [c])).Perm (forestIds [c] ++ forestIds r) := by
      rw [forestIds_append]
      exact (List.Perm.append ih (List.Perm.refl _)).trans (List.perm_append_comm)
    match c with
    | none => simpa [forestIds] using step
    | some (.node i cs) => simpa [forestIds] using step

theorem mem_forestSize {t : RTree} {f : List (Option RTree)} (hm : some t ∈ f) :
    forestSize [some t] ≤ forestSize f := by
  induction f with
  | nil => simp at hm
  | cons c r ih =>
    rcases List.mem_cons.mp hm with hc | hr
    · subst hc
      match t with
      | .node i cs => simp only [forestSize]; omega
    · have := ih hr
      match c with
      | none => simp only [forestSize]; omega
      | some (.node j ds) => simp only [forestSize] at this ⊢; omega

theorem mem_ids_sublist {t : RTree} {f : List (Option RTree)} (hm : some t ∈ f) :
    t.ids.Sublist (forestIds f) := by
  induction f with
  | nil => simp at hm
  | cons c r ih =>
    rcases List.mem_cons.mp hm with hc | hr
    · subst hc
      match t with
      | .node i cs =>
        rw [ids_node, forestIds]
        exact (List.cons_sublist_cons).mpr (List.sublist_append_left _ _)
    · have hsub := ih hr
      match c with
      | none => simpa [forestIds] using hsub
      | some (.node j ds) =>
        rw [forestIds]
        exact hsub.trans ((List.sublist_append_right _ _).cons j)

/-! Lemmas about the layout predicates. -/

theorem modelsF_nil {T : Type} (h : Heap T) (pp : Option Nat) :
    modelsF h pp [] = true := by
  simp [modelsF]

theorem modelsF_cons_hole {T : Type} (h : Heap T) (pp : Option Nat)
    (r : List (Option RTree)) : modelsF h pp (none :: r) = modelsF h pp r := by
  simp [modelsF]

theorem modelsF_cons_node {T : Type} (h : Heap T) (pp : Option Nat) (i : Nat)
    (cs r : List (Option RTree)) :
    modelsF h pp (some (.node i cs) :: r) = true ↔
      (∃ nd, h.deref i = some nd ∧ nd.parentPtr = pp ∧
        nd.childrenPtrs = cs.map optId ∧ modelsF h (some i) cs = true) ∧
      modelsF h pp r = true := by
  rw [modelsF]
  cases hd : h.deref i with
  | none => simp
  | some nd => simp [Bool.and_eq_true, beq_iff_eq, and_assoc]

theorem modelsC_nil {T : Type} (h : Heap T) : modelsC h [] = true := by
  simp [modelsC]

theorem modelsC_cons_hole {T : Type} (h : Heap T) (r : List (Option RTree)) :
    modelsC h (none :: r) = modelsC h r := by
  simp [modelsC]

theorem modelsC_cons_node {T : Type} (h : Heap T) (i : Nat)
    (cs r : List (Option RTree)) :
    modelsC h (some (.node i cs) :: r) = true ↔
      (∃ nd, h.deref i = some nd ∧
        nd.childrenPtrs = cs.map optId ∧ modelsC h cs = true) ∧
      modelsC h r = true := by
  rw [modelsC]
  cases hd : h.deref i with
  | none => simp
  | some nd => simp [Bool.and_eq_true, beq_iff_eq, and_assoc]

theorem modelsC_of_modelsF {T : Type} (h : Heap T) :
    ∀ f, ∀ pp, modelsF h pp f = true → modelsC h f = true := by
  refine forestInd (fun f => ∀ pp, modelsF h pp f = true → modelsC h f = true) ?_ ?_ ?_
  · intro pp _; exact modelsC_nil h
  · intro r ih pp hf
    rw [modelsC_cons_hole]
    exact ih pp (by rwa [modelsF_cons_hole] at hf)
  · intro i cs r ihcs ihr pp hf
    rw [modelsF_cons_node] at hf
    obtain ⟨⟨nd, hd, _, hch, hcs⟩, hr⟩ := hf
    rw [modelsC_cons_node]
    exact ⟨⟨nd, hd, hch, ihcs (some i) hcs⟩, ihr pp hr⟩

theorem modelsC_cons_split {T : Type} (h : Heap T) (c : Option RTree)
    (r : List (Option RTree)) :
    modelsC h (c :: r) = true ↔ modelsC h [c] = true ∧ modelsC h r = true := by
  match c with
  | none => simp [modelsC_cons_hole, modelsC_nil]
  | some (.node i cs) => simp [modelsC_cons_node, modelsC_nil]

theorem modelsC_append {T : Type} (h : Heap T) (a b : List (Option RTree)) :
    modelsC h (a ++ b) = true ↔ modelsC h a = true ∧ modelsC h b = true := by
  induction a with
  | nil => simp [modelsC_nil]
  | cons c r ih =>
    rw [List.cons_append, modelsC_cons_split, ih, modelsC_cons_split h c r]
    tauto

theorem modelsC_reverse {T : Type} (h : Heap T) (a : List (Option RTree)) :
    modelsC h a.reverse = true ↔ modelsC h a = true := by
  induction a with
  | nil => simp
  | cons c r ih =>
    rw [List.reverse_cons, modelsC_append, ih, modelsC_cons_split h c r]
    tauto

theorem modelsC_of_mem {T : Type} (h : Heap T) {t : RTree} {f : List (Option RTree)}
    (hm : some t ∈ f) (hf : modelsC h f = true) : modelsC h [some t] = true := by
  induction f with
  | nil => simp at hm
  | cons c r ih =>
    rw [modelsC_cons_split] at hf
    rcases List.mem_cons.mp hm with hc | hr
    · exact hc ▸ hf.1
    · exact ih hr hf.2

theorem modelsF_cons_split {T : Type} (h : Heap T) (pp : Option Nat) (c : Option RTree)
    (r : List (Option RTree)) :
    modelsF h pp (c :: r) = true ↔ modelsF h pp [c] = true ∧ modelsF h pp r = true := by
  match c with
  | none => simp [modelsF_cons_hole, modelsF_nil]
  | some (.node i cs) => simp [modelsF_cons_node, modelsF_nil]

theorem modelsF_of_mem {T : Type} (h : Heap T) (pp : Option Nat) {t : RTree}
    {f : List (Option RTree)} (hm : some t ∈ f) (hf : modelsF h pp f = true) :
    modelsF h pp [some t] = true := by
  induction f with
  | nil => simp at hm
  | cons c r ih =>
    rw [modelsF_cons_split] at hf
    rcases List.mem_cons.mp hm with hc | hr
    · exact hc ▸ hf.1
    · exact ih hr hf.2

theorem modelsC_deref_isSome {T : Type} (h : Heap T) :
    ∀ f, modelsC h f = true → ∀ i ∈ forestIds f, (h.deref i).isSome := by
  refine forestInd (fun f => modelsC h f = true → ∀ i ∈ forestIds f, (h.deref i).isSome) ?_ ?_ ?_
  · intro _ i hi; simp [forestIds] at hi
  · intro r ih hf i hi
    rw [modelsC_cons_hole] at hf
    rw [forestIds] at hi
    exact ih hf i hi
  · intro j cs r ihcs ihr hf i hi
    rw [modelsC_cons_node] at hf
    obtain ⟨⟨nd, hd, _, hcs⟩, hr⟩ := hf
    rw [forestIds] at hi
    rcases List.mem_cons.mp hi with hij | hi'
    · subst hij; simp [hd]
    · rcases List.mem_append.mp hi' with hc | hrr
      · exact ihcs hcs i hc
      · exact ihr hr i hrr

theorem modelsC_frame {T : Type} (h h' : Heap T) :
    ∀ f, (∀ i ∈ forestIds f, h'.deref i = h.deref i) →
      (modelsC h' f = modelsC h f) := by
  refine forestInd (fun f => (∀ i ∈ forestIds f, h'.deref i = h.deref i) →
    (modelsC h' f = modelsC h f)) ?_ ?_ ?_
  · intro _; simp [modelsC_nil]
  · intro r ih hagree
    rw [modelsC_cons_hole, modelsC_cons_hole]
    exact ih (by intro i hi; exact hagree i (by rwa [forestIds]))
  · intro j cs r ihcs ihr hagree
    have hagj : h'.deref j = h.deref j :=
      hagree j (by rw [forestIds]; exact List.mem_cons_self _ _)
    have hacs : ∀ i ∈ forestIds cs, h'.deref i = h.deref i := by
      intro i hi
      exact hagree i (by rw [forestIds]; exact List.mem_cons_of_mem _ (List.mem_append_left _ hi))
    have har : ∀ i ∈ forestIds r, h'.deref i = h.deref i := by
      intro i hi
      exact hagree i (by rw [forestIds]; exact List.mem_cons_of_mem _ (List.mem_append_right _ hi))
    rw [modelsC, modelsC, hagj, ihcs hacs, ihr har]

theorem modelsF_frame {T : Type} (h h' : Heap T) :
    ∀ f, ∀ pp, (∀ i ∈ forestIds f, h'.deref i = h.deref i) →
      (modelsF h' pp f = modelsF h pp f) := by
  refine forestInd (fun f => ∀ pp, (∀ i ∈ forestIds f, h'.deref i = h.deref i) →
    (modelsF h' pp f = modelsF h pp f)) ?_ ?_ ?_
  · intro _ _; simp [modelsF_nil]
  · intro r ih pp hagree
    rw [modelsF_cons_hole, modelsF_cons_hole]
    exact ih pp (by intro i hi; exact hagree i (by rwa [forestIds]))
  · intro j cs r ihcs ihr pp hagree
    have hagj : h'.deref j = h.deref j :=
      hagree j (by rw [forestIds]; exact List.mem_cons_self _ _)
    have hacs : ∀ i ∈ forestIds cs, h'.deref i = h.deref i := by
      intro i hi
      exact hagree i (by rw [forestIds]; exact List.mem_cons_of_mem _ (List.mem_append_left _ hi))
    have har : ∀ i ∈ forestIds r, h'.deref i = h.deref i := by
      intro i hi
      exact hagree i (by rw [forestIds]; exact List.mem_cons_of_mem _ (List.mem_append_right _ hi))
    rw [modelsF, modelsF, hagj, ihcs (some j) hacs, ihr pp har]


/-! Lemmas about the exploration order. -/

theorem exploreSpec_append : ∀ a b : List (Option RTree),
    exploreSpec (a ++ b) = exploreSpec a ++ exploreSpec b := by
  have key : ∀ n a b, forestSize a ≤ n →
      exploreSpec (a ++ b) = exploreSpec a ++ exploreSpec b := by
    intro n
    induction n with
    | zero =>
      intro a b ha
      match a with
      | [] => simp [exploreSpec]
      | none :: r => simp [forestSize] at ha
      | some (.node i cs) :: r => simp [forestSize] at ha
    | succ n ih =>
      intro a b ha
      match a with
      | [] => simp [exploreSpec]
      | none :: r =>
        simp only [forestSize] at ha
        rw [List.cons_append]
        simp only [exploreSpec]
        exact ih r b (by omega)
      | some (.node i cs) :: r =>
        simp only [forestSize] at ha
        rw [List.cons_append]
        simp only [exploreSpec]
        rw [← List.append_assoc, ih (cs.reverse ++ r) b
          (by rw [forestSize_append, forestSize_reverse]; omega)]
        simp
  exact fun a b => key (forestSize a) a b le_rfl

theorem exploreSpec_perm : ∀ f : List (Option RTree),
    (exploreSpec f).Perm (forestIds f) := by
  have key : ∀ n f, forestSize f ≤ n → (exploreSpec f).Perm (forestIds f) := by
    intro n
    induction n with
    | zero =>
      intro f hf
      match f with
      | [] => simp [exploreSpec, forestIds]
      | none :: r => simp [forestSize] at hf
      | some (.node i cs) :: r => simp [forestSize] at hf
    | succ n ih =>
      intro f hf
      match f with
      | [] => simp [exploreSpec, forestIds]
      | none :: r =>
        simp only [forestSize] at hf
        simp only [exploreSpec, forestIds]
        exact ih r (by omega)
      | some (.node i cs) :: r =>
        simp only [forestSize] at hf
        simp only [exploreSpec, forestIds]
        refine List.Perm.cons i ?_
        have h1 : (exploreSpec (cs.reverse ++ r)).Perm (forestIds (cs.reverse ++ r)) :=
          ih (cs.reverse ++ r) (by rw [forestSize_append, forestSize_reverse]; omega)
        refine h1.trans ?_
        rw [forestIds_append]
        exact List.Perm.append (forestIds_reverse_perm cs) (List.Perm.refl _)
  exact fun f => key (forestSize f) f le_rfl

/-! Lemmas about the detach step. -/

theorem detachChild_eq_none {cs : List (Option Nat)} {x : Nat} :
    detachChild cs x = none ↔ some x ∉ cs := by
  induction cs with
  | nil => simp [detachChild]
  | cons c r ih =>
    by_cases hc : c = some x
    · subst hc; simp [detachChild]
    · simp [detachChild, hc, Option.map_eq_none', ih, List.mem_cons]
      tauto

theorem detachChild_spec {cs : List (Option Nat)} {x : Nat} {cs' : List (Option Nat)}
    (hd : detachChild cs x = some cs') :
    ∃ pre post, cs = pre ++ some x :: post ∧ some x ∉ pre ∧ cs' = pre ++ none :: post := by
  induction cs generalizing cs' with
  | nil => simp [detachChild] at hd
  | cons c r ih =>
    by_cases hc : c = some x
    · subst hc
      have hd' : (none :: r : List (Option Nat)) = cs' := by
        simpa [detachChild] using hd
      exact ⟨[], r, by simp, by simp, by simp [hd'.symm]⟩
    · simp only [detachChild, if_neg hc, Option.map_eq_some'] at hd
      obtain ⟨cs'', hcs'', heq⟩ := hd
      obtain ⟨pre, post, h1, h2, h3⟩ := ih hcs''
      refine ⟨c :: pre, post, by simp [h1], ?_, by simp [heq.symm, h3]⟩
      intro hmem
      rcases List.mem_cons.mp hmem with h | h
      · exact hc h.symm
      · exact h2 h

/-! Lemmas about the ancestor walk. -/

theorem walkBack_mono {T : Type} {h : Heap T} :
    ∀ {fuel p r}, walkBack h fuel p = some r →
      ∀ fuel', fuel ≤ fuel' → walkBack h fuel' p = some r := by
  intro fuel
  induction fuel with
  | zero => intro p r hw; simp [walkBack] at hw
  | succ n ih =>
    intro p r hw fuel' hle
    match fuel', hle with
    | fuel'+1, hle =>
      cases hd : h.deref p with
      | none => simp [walkBack, hd] at hw
      | some nd =>
        cases hp : nd.parentPtr with
        | none =>
          simp only [walkBack, hd, hp] at hw ⊢
          exact hw
        | some q =>
          simp only [walkBack, hd, hp] at hw ⊢
          exact ih hw fuel' (by omega)

/-! Lemmas about subtree occurrence. -/

theorem self_mem_ids (t : RTree) : t.id ∈ t.ids := by
  match t with
  | .node i cs => rw [ids_node]; exact List.mem_cons_self _ _

theorem inTree_ids_sublist {st t : RTree} (hin : InTree st t) : st.ids.Sublist t.ids := by
  induction hin with
  | refl => exact List.Sublist.refl _
  | @child c i cs hmem hsub ih =>
    rw [ids_node]
    exact ((ih.trans (mem_ids_sublist hmem)).cons i)

theorem modelsF_inTree {T : Type} (h : Heap T) {t st : RTree}
    (hin : InTree st t) :
    ∀ pp, modelsF h pp [some t] = true → ∃ pp', modelsF h pp' [some st] = true := by
  induction hin with
  | refl => exact fun pp hm => ⟨pp, hm⟩
  | @child c i cs hmem hsub ih =>
    intro pp hm
    rw [modelsF_cons_node] at hm
    obtain ⟨⟨nd, _, _, _, hcs⟩, -⟩ := hm
    exact ih (some i) (modelsF_of_mem h (some i) hmem hcs)

theorem inTree_parent {T : Type} (h : Heap T) {t st : RTree}
    (hin : InTree st t) :
    ∀ pp, modelsF h pp [some t] = true →
    st = t ∨ ∃ p pcs, InTree (RTree.node p pcs) t ∧ some st ∈ pcs ∧
      modelsF h (some p) [some st] = true := by
  induction hin with
  | refl => exact fun _ _ => Or.inl rfl
  | @child c i cs hmem hsub ih =>
    intro pp hm
    rw [modelsF_cons_node] at hm
    obtain ⟨⟨nd, _, _, _, hcs⟩, -⟩ := hm
    have hmc : modelsF h (some i) [some c] = true := modelsF_of_mem h (some i) hmem hcs
    rcases ih (some i) hmc with heq | ⟨p, pcs, hpt, hpm, hms⟩
    · subst heq
      exact Or.inr ⟨i, cs, InTree.refl _, hmem, hmc⟩
    · exact Or.inr ⟨p, pcs, InTree.child hmem hpt, hpm, hms⟩

theorem parent_not_in_sub {p : Nat} {pcs : List (Option RTree)} {st : RTree}
    (hnodup : (RTree.node p pcs).ids.Nodup) (hmem : some st ∈ pcs) : p ∉ st.ids := by
  rw [ids_node, List.nodup_cons] at hnodup
  intro hp
  exact hnodup.1 ((mem_ids_sublist hmem).subset hp)

theorem target_sub_root {t : RTree} {p : Nat} {pcs : List (Option RTree)} {st : RTree}
    (hnodup : t.ids.Nodup) (hpt : InTree (RTree.node p pcs) t) (hmem : some st ∈ pcs) :
    t.id ∉ st.ids ∧ st.id ≠ t.id := by
  have hsub : st.ids.Sublist (forestIds pcs) := mem_ids_sublist hmem
  cases hpt with
  | refl =>
    rw [RTree.id]
    rw [ids_node, List.nodup_cons] at hnodup
    have hnp : p ∉ st.ids := fun hp => hnodup.1 (hsub.subset hp)
    exact ⟨hnp, fun he => hnp (he ▸ self_mem_ids st)⟩
  | @child c i cs hmemc hsub2 =>
    have hcs : st.ids.Sublist (forestIds cs) := by
      have h1 : st.ids.Sublist (RTree.node p pcs).ids := by
        rw [ids_node]; exact hsub.cons p
      exact (h1.trans (inTree_ids_sublist hsub2)).trans (mem_ids_sublist hmemc)
    rw [RTree.id]
    rw [ids_node, List.nodup_cons] at hnodup
    have hni : i ∉ st.ids := fun hp => hnodup.1 (hcs.subset hp)
    exact ⟨hni, fun he => hni (he ▸ self_mem_ids st)⟩

theorem walkBack_inTree {T : Type} (h : Heap T) {st anc : RTree} (hin : InTree st anc) :
    ∀ pp, modelsF h pp [some anc] = true →
    ∀ fuel r, walkBack h fuel anc.id = some r →
      walkBack h (fuel + forestSize [some anc]) st.id = some r := by
  induction hin with
  | refl =>
    intro pp hm fuel r hw
    exact walkBack_mono hw _ (by omega)
  | @child c i cs hmem hsub ih =>
    intro pp hm fuel r hw
    rw [modelsF_cons_node] at hm
    obtain ⟨⟨nd, hd, hppEq, hch, hcs⟩, -⟩ := hm
    have hmc : modelsF h (some i) [some c] = true := modelsF_of_mem h (some i) hmem hcs
    obtain ⟨ci, ccs⟩ := c
    have hmc2 := hmc
    rw [modelsF_cons_node] at hmc2
    obtain ⟨⟨cnd, hcd, hcp, _, _⟩, -⟩ := hmc2
    have hw1 : walkBack h (fuel+1) (RTree.node ci ccs).id = some r := by
      simp only [walkBack, RTree.id, hcd, hcp]
      simpa [RTree.id] using hw
    have h2 := ih (some i) hmc (fuel+1) r hw1
    refine walkBack_mono h2 _ ?_
    have hms := mem_forestSize hmem
    simp only [forestSize] at hms ⊢
    omega

theorem walkBack_reaches {T : Type} (h : Heap T) {t st : RTree}
    (hm : modelsF h none [some t] = true) (hin : InTree st t) :
    ∀ fuel, forestSize [some t] < fuel → walkBack h fuel st.id = some t.id := by
  intro fuel hfuel
  obtain ⟨ti, tcs⟩ := t
  have hm2 := hm
  rw [modelsF_cons_node] at hm2
  obtain ⟨⟨nd, hd, hpp, -, -⟩, -⟩ := hm2
  have h1 : walkBack h 1 (RTree.node ti tcs).id = some (RTree.node ti tcs).id := by
    simp only [walkBack, RTree.id, hd, hpp]
  have h2 := walkBack_inTree h hin none hm 1 _ h1
  exact walkBack_mono h2 fuel (by omega)

/-! The explore and release loops on a modelled forest. -/

theorem exploreLoop_spec {T : Type} (str : T → String) (dbg : Bool) (h : Heap T) :
    ∀ fuel (pend : List (Option RTree)) (acc : List Nat) (log : List String),
      modelsC h pend = true → forestSize pend ≤ fuel →
      ∃ log', exploreLoop str dbg h fuel (pend.map optId) acc log =
        some (acc ++ exploreSpec pend, log') := by
  intro fuel
  induction fuel with
  | zero =>
    intro pend acc log hm hf
    match pend with
    | [] => exact ⟨log, by simp [exploreLoop, exploreSpec]⟩
    | none :: r => simp [forestSize] at hf
    | some (.node i cs) :: r => simp [forestSize] at hf
  | succ n ih =>
    intro pend acc log hm hf
    match pend with
    | [] => exact ⟨log, by simp [exploreLoop, exploreSpec]⟩
    | none :: r =>
      simp only [forestSize] at hf
      rw [modelsC_cons_hole] at hm
      obtain ⟨log', hrun⟩ := ih r acc
        (if dbg then log ++ [traceLine str "Exploring node: " ((none : Option Nat).bind h.deref)] else log)
        hm (by omega)
      refine ⟨log', ?_⟩
      simp only [List.map_cons, optId, exploreLoop, exploreSpec]
      exact hrun
    | some (.node i cs) :: r =>
      simp only [forestSize] at hf
      rw [modelsC_cons_node] at hm
      obtain ⟨⟨nd, hd, hch, hcs⟩, hr⟩ := hm
      have hm' : modelsC h (cs.reverse ++ r) = true := by
        rw [modelsC_append]
        exact ⟨(modelsC_reverse h cs).mpr hcs, hr⟩
      obtain ⟨log', hrun⟩ := ih (cs.reverse ++ r) (acc ++ [i])
        (if dbg then log ++ [traceLine str "Exploring node: " ((some i).bind h.deref)] else log)
        hm' (by rw [forestSize_append, forestSize_reverse]; omega)
      refine ⟨log', ?_⟩
      simp only [List.map_cons, optId, RTree.id, exploreLoop, exploreSpec, hd, hch]
      rw [List.map_append] at hrun
      rw [List.map_reverse] at hrun
      simpa [List.append_assoc] using hrun

theorem releaseLoop_spec {T : Type} (str : T → String) (dbg : Bool) :
    ∀ (ds : List Nat) (h : Heap T) (log : List String),
      ds.Nodup → (∀ p ∈ ds, (h.deref p).isSome) →
      ∃ h' log', releaseLoop str dbg ds h log = some (h', log') ∧
        ∀ i, h'.deref i = if i ∈ ds then none else h.deref i := by
  intro ds
  induction ds with
  | nil =>
    intro h log _ _
    exact ⟨h, log, by simp [releaseLoop], by simp⟩
  | cons p rest ih =>
    intro h log hnd hval
    obtain ⟨nd, hd⟩ := Option.isSome_iff_exists.mp (hval p (List.mem_cons_self _ _))
    rw [List.nodup_cons] at hnd
    have hval' : ∀ q ∈ rest, ((h.free p).deref q).isSome := by
      intro q hq
      rw [Heap.deref_free_ne h (fun he => hnd.1 (by rw [he]; exact hq))]
      exact hval q (List.mem_cons_of_mem _ hq)
    obtain ⟨h', log', hrun, hchar⟩ := ih (h.free p)
      (if dbg then log ++ [traceLine str "Deleting node: " (some nd)] else log)
      hnd.2 hval'
    refine ⟨h', log', ?_, ?_⟩
    · simp only [releaseLoop, hd]
      exact hrun
    · intro i
      rw [hchar i]
      by_cases hip : i = p
      · subst hip
        rw [if_neg hnd.1, if_pos (List.mem_cons_self _ _)]
        exact Heap.deref_free_self h hd
      · have hmem : (i ∈ p :: rest) ↔ i ∈ rest := by simp [List.mem_cons, hip]
        by_cases hir : i ∈ rest
        · rw [if_pos hir, if_pos (hmem.mpr hir)]
        · rw [if_neg hir, if_neg (fun hc => hir (hmem.mp hc))]
          exact Heap.deref_free_ne h (fun he => hip he.symm)

theorem inTree_forestSize {st t : RTree} (hin : InTree st t) :
    forestSize [some st] ≤ forestSize [some t] := by
  induction hin with
  | refl => exact le_rfl
  | @child c i cs hmem hsub ih =>
    have h1 := mem_forestSize hmem
    simp only [forestSize] at ih h1 ⊢
    omega

/-- Master specification of a successful `deleteSubtree` on a well-formed
tree: it succeeds, resets the root pointer exactly when the target is the
root, releases exactly the addresses of the target's subtree (each once,
in reverse exploration order), frees exactly those cells, and leaves
every other cell unchanged except the parent's, whose child slot holding
the target becomes a tombstone. -/
theorem deleteSubtree_spec {T : Type} (str : T → String) {fuel : Nat} {h : Heap T}
    {tr : GenericTree T} {t st : RTree}
    (hwf : WF h tr t) (hin : InTree st t)
    (hfuel : forestSize [some t] < fuel) :
    ∃ res : DelResult T,
      deleteSubtree str fuel h tr (some st.id) = some res ∧
      res.err = none ∧
      res.tree = { tr with rootNodePtr := if st.id = t.id then none else tr.rootNodePtr } ∧
      res.released = (exploreSpec [some st]).reverse ∧
      res.released.Nodup ∧
      (∀ i, i ∈ res.released ↔ i ∈ st.ids) ∧
      (∀ i ∈ st.ids, res.heap.deref i = none) ∧
      (st.id = t.id → ∀ i, i ∉ st.ids → res.heap.deref i = h.deref i) ∧
      (st.id ≠ t.id →
        ∃ p nd pre post,
          h.deref p = some nd ∧
          nd.childrenPtrs = pre ++ some st.id :: post ∧
          some st.id ∉ pre ∧
          p ∉ st.ids ∧
          res.heap.deref p = some { nd with childrenPtrs := pre ++ none :: post } ∧
          (∀ i, i ∉ st.ids → i ≠ p → res.heap.deref i = h.deref i)) := by
  obtain ⟨hroot, hm, hnodup⟩ := hwf
  have hndst : st.ids.Nodup := (inTree_ids_sublist hin).nodup hnodup
  have hwb : walkBack h fuel st.id = some t.id := walkBack_reaches h hm hin fuel hfuel
  have hperm : (exploreSpec [some st]).Perm st.ids := exploreSpec_perm [some st]
  have hszst : forestSize [some st] ≤ fuel := le_trans (inTree_forestSize hin) (le_of_lt hfuel)
  rcases inTree_parent h hin none hm with heq | ⟨p, pcs, hpt, hmem, hms⟩
  · -- the target is the whole tree's root
    subst heq
    obtain ⟨si, scs⟩ := st
    have hm2 := hm
    rw [modelsF_cons_node] at hm2
    obtain ⟨⟨nd, hd, hpp, hch, hcs⟩, -⟩ := hm2
    have hmc : modelsC h [some (RTree.node si scs)] = true := modelsC_of_modelsF h _ none hm
    obtain ⟨log', hexp⟩ := exploreLoop_spec str tr.showDebugMessages h fuel
      [some (RTree.node si scs)] [] [] hmc hszst
    set ds := exploreSpec [some (RTree.node si scs)] with hds
    have hdsperm : ds.Perm (RTree.node si scs).ids := hperm
    have hdsnodup : ds.Nodup := hdsperm.nodup_iff.mpr hnodup
    have hval : ∀ q ∈ ds.reverse, (h.deref q).isSome := by
      intro q hq
      rw [List.mem_reverse] at hq
      have hq2 : q ∈ (RTree.node si scs).ids := hdsperm.mem_iff.mp hq
      rw [RTree.ids] at hq2
      exact modelsC_deref_isSome h _ hmc q hq2
    obtain ⟨h2, log2, hrel, hchar⟩ := releaseLoop_spec str tr.showDebugMessages ds.reverse h log'
      (List.nodup_reverse.mpr hdsnodup) hval
    refine ⟨⟨none, h2, { tr with rootNodePtr := none }, log2, ds.reverse⟩, ?_, rfl, ?_, rfl,
      List.nodup_reverse.mpr hdsnodup, ?_, ?_, ?_, ?_⟩
    · have hwb' : walkBack h fuel si = some si := by simpa [RTree.id] using hwb
      show deleteSubtree str fuel h tr (some (RTree.node si scs).id) = _
      simp only [RTree.id]
      simp only [deleteSubtree, hwb', hroot, RTree.id]
      simp only [if_true]
      simp only [hd, hpp]
      simp only [deletePhases]
      simp only [List.map_cons, List.map_nil, optId, RTree.id, List.nil_append] at hexp
      simp only [hexp]
      simp only [hrel]
      simp
    · simp [RTree.id]
    · intro i
      rw [List.mem_reverse]
      exact hdsperm.mem_iff
    · intro i hi
      rw [hchar i, if_pos (List.mem_reverse.mpr (hdsperm.mem_iff.mpr hi))]
    · intro _ i hi
      rw [hchar i, if_neg (fun hc => hi (hdsperm.mem_iff.mp (List.mem_reverse.mp hc)))]
    · intro hne
      exact absurd rfl hne
  · -- the target has a parent
    obtain ⟨si, scs⟩ := st
    have hms2 := hms
    rw [modelsF_cons_node] at hms2
    obtain ⟨⟨snd, hsd, hsp, hsch, hscs⟩, -⟩ := hms2
    obtain ⟨hrootnotin, hne⟩ := target_sub_root hnodup hpt hmem
    have hndp : (RTree.node p pcs).ids.Nodup := (inTree_ids_sublist hpt).nodup hnodup
    have hpnotin : p ∉ (RTree.node si scs).ids := parent_not_in_sub hndp hmem
    obtain ⟨pp', hmp⟩ := modelsF_inTree h hpt none hm
    have hmp2 := hmp
    rw [modelsF_cons_node] at hmp2
    obtain ⟨⟨pnd, hpd, -, hpch, hpcs⟩, -⟩ := hmp2
    have hinch : some (RTree.node si scs).id ∈ pnd.childrenPtrs := by
      rw [hpch]
      exact List.mem_map.mpr ⟨some (RTree.node si scs), hmem, by simp [optId]⟩
    cases hdet : detachChild pnd.childrenPtrs (RTree.node si scs).id with
    | none => exact absurd hinch (detachChild_eq_none.mp hdet)
    | some cs' =>
    obtain ⟨pre, post, hsplit, hnotpre, hcs'⟩ := detachChild_spec hdet
    rw [RTree.ids] at hpnotin
    have hagree : ∀ i ∈ forestIds [some (RTree.node si scs)],
        (h.write p (some { pnd with childrenPtrs := cs' })).deref i = h.deref i := by
      intro i hi
      exact Heap.deref_write_ne h _ (fun hpe => hpnotin (by rw [hpe]; exact hi))
    have hmc1 : modelsC (h.write p (some { pnd with childrenPtrs := cs' }))
        [some (RTree.node si scs)] = true := by
      rw [modelsC_frame h _ _ hagree]
      exact modelsC_of_modelsF h _ (some p) hms
    obtain ⟨log', hexp⟩ := exploreLoop_spec str tr.showDebugMessages
      (h.write p (some { pnd with childrenPtrs := cs' })) fuel
      [some (RTree.node si scs)] [] [] hmc1 hszst
    set ds := exploreSpec [some (RTree.node si scs)] with hds
    have hdsperm : ds.Perm (RTree.node si scs).ids := hperm
    have hdsnodup : ds.Nodup := hdsperm.nodup_iff.mpr hndst
    have hval : ∀ q ∈ ds.reverse,
        ((h.write p (some { pnd with childrenPtrs := cs' })).deref q).isSome := by
      intro q hq
      rw [List.mem_reverse] at hq
      have hq2 : q ∈ (RTree.node si scs).ids := hdsperm.mem_iff.mp hq
      rw [RTree.ids] at hq2
      exact modelsC_deref_isSome _ _ hmc1 q hq2
    obtain ⟨h2, log2, hrel, hchar⟩ := releaseLoop_spec str tr.showDebugMessages ds.reverse
      (h.write p (some { pnd with childrenPtrs := cs' })) log'
      (List.nodup_reverse.mpr hdsnodup) hval
    have hne' : si ≠ t.id := by simpa [RTree.id] using hne
    refine ⟨⟨none, h2, tr, log2, ds.reverse⟩, ?_, rfl, ?_, rfl,
      List.nodup_reverse.mpr hdsnodup, ?_, ?_, ?_, ?_⟩
    · have hwb' : walkBack h fuel si = some t.id := by simpa [RTree.id] using hwb
      show deleteSubtree str fuel h tr (some (RTree.node si scs).id) = _
      simp only [RTree.id]
      simp only [deleteSubtree, hwb', hroot, RTree.id]
      simp only [if_true]
      simp only [hsd, hsp, hpd]
      simp only [RTree.id] at hdet
      simp only [hdet]
      simp only [deletePhases]
      simp only [List.map_cons, List.map_nil, optId, RTree.id, List.nil_append] at hexp
      simp only [hexp]
      simp only [hrel]
      have hbne : ((some t.id : Option Nat) == some si) = false := by
        simp [hne'.symm]
      simp [hbne]
      exact fun hc => absurd hc.symm hne'
    · show tr = { tr with rootNodePtr := if (RTree.node si scs).id = t.id then none else tr.rootNodePtr }
      rw [if_neg hne]
    · intro i
      rw [List.mem_reverse]
      exact hdsperm.mem_iff
    · intro i hi
      rw [hchar i, if_pos (List.mem_reverse.mpr (hdsperm.mem_iff.mpr hi))]
    · intro hc
      exact absurd (by simpa [RTree.id] using hc) hne'
    · intro _
      refine ⟨p, pnd, pre, post, hpd, ?_, ?_, ?_, ?_, ?_⟩
      · simpa [RTree.id] using hsplit
      · simpa [RTree.id] using hnotpre
      · rw [RTree.ids]; exact hpnotin
      · have hp2 : p ∉ ds.reverse := by
          rw [List.mem_reverse]
          intro hc
          exact hpnotin (by rw [← RTree.ids]; exact hdsperm.mem_iff.mp hc)
        rw [hchar p, if_neg hp2, Heap.deref_write_self h _ hpd, hcs']
      · intro i hi hip
        have hi2 : i ∉ ds.reverse := by
          rw [List.mem_reverse]
          intro hc
          exact hi (hdsperm.mem_iff.mp hc)
        rw [hchar i, if_neg hi2,
          Heap.deref_write_ne h _ (fun hpe => hip hpe.symm)]

/-! Lemmas about compaction shapes. -/

theorem compressShape_id (t : RTree) : (compressShape t).id = t.id := by
  match t with
  | .node i cs => simp [compressShape, RTree.id]

theorem filter_map_optId (cs : List (Option RTree)) :
    (cs.map optId).filter Option.isSome = (forestKeep cs).map (fun t => some t.id) := by
  induction cs with
  | nil => simp [forestKeep]
  | cons c r ih =>
    match c with
    | none => simpa [optId, forestKeep, List.filter] using ih
    | some t => simpa [optId, forestKeep, List.filter] using ih

theorem compressShapeList_map_optId (cs : List (Option RTree)) :
    (compressShapeList cs).map optId = (forestKeep cs).map (fun t => some t.id) := by
  induction cs with
  | nil => simp [compressShapeList, forestKeep]
  | cons c r ih =>
    match c with
    | none => simpa [compressShapeList, forestKeep] using ih
    | some (.node i cs') => simpa [compressShapeList, forestKeep, optId, RTree.id] using ih

theorem forestIds_forestKeep (cs : List (Option RTree)) :
    forestIds ((forestKeep cs).map some) = forestIds cs := by
  induction cs with
  | nil => simp [forestKeep]
  | cons c r ih =>
    match c with
    | none => simpa [forestKeep, forestIds] using ih
    | some (.node i cs') => simpa [forestKeep, forestIds] using ih

theorem modelsC_forestKeep {T : Type} (h : Heap T) (cs : List (Option RTree)) :
    modelsC h ((forestKeep cs).map some) = modelsC h cs := by
  induction cs with
  | nil => simp [forestKeep]
  | cons c r ih =>
    match c with
    | none => simpa [forestKeep, modelsC_cons_hole] using ih
    | some (.node i cs') =>
      simp only [forestKeep, List.map_cons]
      rw [modelsC, modelsC]
      rw [ih]

theorem compressShapeList_ids : ∀ f : List (Option RTree),
    forestIds (compressShapeList f) = forestIds f := by
  refine forestInd (fun f => forestIds (compressShapeList f) = forestIds f) ?_ ?_ ?_
  · simp [compressShapeList]
  · intro r ih
    simpa [compressShapeList, forestIds] using ih
  · intro i cs r ihcs ihr
    simp [compressShapeList, forestIds, ihcs, ihr]

theorem forestNoHole_compressShapeList : ∀ f : List (Option RTree),
    forestNoHole (compressShapeList f) = true := by
  refine forestInd (fun f => forestNoHole (compressShapeList f) = true) ?_ ?_ ?_
  · simp [compressShapeList, forestNoHole]
  · intro r ih
    simpa [compressShapeList] using ih
  · intro i cs r ihcs ihr
    simp [compressShapeList, forestNoHole, ihcs, ihr]

theorem noHole_eq_keep : ∀ f : List (Option RTree),
    forestNoHole f = true → f = (forestKeep f).map some := by
  intro f
  induction f with
  | nil => intro _; simp [forestKeep]
  | cons c r ih =>
    intro hf
    match c with
    | none => simp [forestNoHole] at hf
    | some (.node i cs) =>
      simp only [forestNoHole, Bool.and_eq_true] at hf
      simp only [forestKeep, List.map_cons, List.cons.injEq, true_and]
      exact ih hf.2

theorem modelsF_compressShapeList {T : Type} (h h' : Heap T) :
    ∀ f, (∀ i ∈ forestIds f, h'.deref i = compressCell (h.deref i)) →
      ∀ pp, modelsF h pp f = true → modelsF h' pp (compressShapeList f) = true := by
  refine forestInd (fun f => (∀ i ∈ forestIds f, h'.deref i = compressCell (h.deref i)) →
    ∀ pp, modelsF h pp f = true → modelsF h' pp (compressShapeList f) = true) ?_ ?_ ?_
  · intro _ pp _
    simp [compressShapeList, modelsF_nil]
  · intro r ih hchar pp hf
    rw [modelsF_cons_hole] at hf
    rw [forestIds] at hchar
    simpa [compressShapeList] using ih hchar pp hf
  · intro i cs r ihcs ihr hchar pp hf
    rw [modelsF_cons_node] at hf
    obtain ⟨⟨nd, hd, hpp, hch, hcs⟩, hr⟩ := hf
    have hchari : h'.deref i = compressCell (h.deref i) :=
      hchar i (by rw [forestIds]; exact List.mem_cons_self _ _)
    have hcharcs : ∀ j ∈ forestIds cs, h'.deref j = compressCell (h.deref j) := by
      intro j hj
      exact hchar j (by rw [forestIds]; exact List.mem_cons_of_mem _ (List.mem_append_left _ hj))
    have hcharr : ∀ j ∈ forestIds r, h'.deref j = compressCell (h.deref j) := by
      intro j hj
      exact hchar j (by rw [forestIds]; exact List.mem_cons_of_mem _ (List.mem_append_right _ hj))
    simp only [compressShapeList]
    rw [modelsF_cons_node]
    refine ⟨⟨{ nd with childrenPtrs := nd.childrenPtrs.filter Option.isSome }, ?_, ?_, ?_, ?_⟩,
      ihr hcharr pp hr⟩
    · rw [hchari, hd]; rfl
    · exact hpp
    · rw [hch, filter_map_optId, compressShapeList_map_optId]
    · exact ihcs hcharcs (some i) hcs

theorem forestNoHole_append : ∀ a b : List (Option RTree),
    forestNoHole (a ++ b) = (forestNoHole a && forestNoHole b) := by
  intro a
  induction a with
  | nil => intro b; simp [forestNoHole]
  | cons c r ih =>
    intro b
    match c with
    | none => simp [forestNoHole]
    | some (.node i cs) =>
      simp [forestNoHole, ih, Bool.and_assoc]

theorem compressLoop_spec {T : Type} :
    ∀ (fuel : Nat) (h : Heap T) (pend : List RTree),
      modelsC h (pend.map some) = true →
      (forestIds (pend.map some)).Nodup →
      (forestIds (pend.map some)).length ≤ fuel →
      ∃ h', compressLoop fuel h (pend.map (fun t => some t.id)) = some (none, h') ∧
        ∀ i, h'.deref i =
          if i ∈ forestIds (pend.map some) then compressCell (h.deref i) else h.deref i := by
  intro fuel
  induction fuel with
  | zero =>
    intro h pend hm hnd hlen
    match pend with
    | [] => exact ⟨h, by simp [compressLoop], by intro i; simp [forestIds]⟩
    | (.node i cs) :: rest => simp [forestIds] at hlen
  | succ n ih =>
    intro h pend hm hnd hlen
    match pend with
    | [] => exact ⟨h, by simp [compressLoop], by intro i; simp [forestIds]⟩
    | (.node i cs) :: rest =>
      rw [List.map_cons, modelsC_cons_node] at hm
      obtain ⟨⟨nd, hd, hch, hcs⟩, hr⟩ := hm
      rw [List.map_cons, forestIds] at hnd hlen
      rw [List.nodup_cons] at hnd
      have hmemtail : ∀ j, j ∈ forestIds ((rest ++ forestKeep cs).map some) ↔
          j ∈ forestIds cs ++ forestIds (rest.map some) := by
        intro j
        rw [List.map_append, forestIds_append, forestIds_forestKeep]
        simp [List.mem_append]
        tauto
      have hinot : i ∉ forestIds ((rest ++ forestKeep cs).map some) := by
        intro hc
        exact hnd.1 ((hmemtail i).mp hc)
      have hagree : ∀ j ∈ forestIds ((rest ++ forestKeep cs).map some),
          (h.write i (some { nd with childrenPtrs := nd.childrenPtrs.filter Option.isSome })).deref j
            = h.deref j := by
        intro j hj
        exact Heap.deref_write_ne h _ (fun he => hinot (he ▸ hj))
      have hm' : modelsC (h.write i (some { nd with childrenPtrs := nd.childrenPtrs.filter Option.isSome }))
          ((rest ++ forestKeep cs).map some) = true := by
        rw [modelsC_frame h _ _ hagree]
        rw [List.map_append, modelsC_append]
        exact ⟨hr, by rw [modelsC_forestKeep]; exact hcs⟩
      have hnd' : (forestIds ((rest ++ forestKeep cs).map some)).Nodup := by
        rw [List.map_append, forestIds_append, forestIds_forestKeep]
        exact (List.perm_append_comm).nodup_iff.mp hnd.2
      have hlen' : (forestIds ((rest ++ forestKeep cs).map some)).length ≤ n := by
        rw [List.map_append, forestIds_append, forestIds_forestKeep]
        rw [List.length_cons, List.length_append] at hlen
        rw [List.length_append]
        omega
      obtain ⟨h', hrun, hchar⟩ := ih
        (h.write i (some { nd with childrenPtrs := nd.childrenPtrs.filter Option.isSome }))
        (rest ++ forestKeep cs) hm' hnd' hlen'
      refine ⟨h', ?_, ?_⟩
      · rw [List.map_cons]
        have hd2 : h.deref (RTree.node i cs).id = some nd := hd
        simp only [compressLoop, hd2]
        rw [show rest.map (fun t => some t.id) ++ nd.childrenPtrs.filter Option.isSome =
            (rest ++ forestKeep cs).map (fun t => some t.id) from by
          rw [hch, filter_map_optId, List.map_append]]
        exact hrun
      · intro j
        rw [hchar j, List.map_cons, forestIds]
        by_cases hji : j = i
        · subst hji
          rw [if_neg hinot, if_pos (List.mem_cons_self _ _)]
          rw [Heap.deref_write_self h _ hd, hd]
          rfl
        · by_cases hjt : j ∈ forestIds cs ++ forestIds (rest.map some)
          · rw [if_pos ((hmemtail j).mpr hjt), if_pos (List.mem_cons_of_mem _ hjt)]
            rw [Heap.deref_write_ne h _ (fun he => hji he.symm)]
          · have hnotin2 : j ∉ i :: (forestIds cs ++ forestIds (rest.map some)) := by
              intro hc
              rcases List.mem_cons.mp hc with hc1 | hc2
              · exact hji hc1
              · exact hjt hc2
            rw [if_neg (fun hc => hjt ((hmemtail j).mp hc)), if_neg hnotin2]
            rw [Heap.deref_write_ne h _ (fun he => hji he.symm)]

theorem compressLoop_id {T : Type} :
    ∀ (fuel : Nat) (h : Heap T) (pend : List RTree),
      modelsC h (pend.map some) = true →
      forestNoHole (pend.map some) = true →
      (forestIds (pend.map some)).length ≤ fuel →
      compressLoop fuel h (pend.map (fun t => some t.id)) = some (none, h) := by
  intro fuel
  induction fuel with
  | zero =>
    intro h pend hm hnh hlen
    match pend with
    | [] => simp [compressLoop]
    | (.node i cs) :: rest => simp [forestIds] at hlen
  | succ n ih =>
    intro h pend hm hnh hlen
    match pend with
    | [] => simp [compressLoop]
    | (.node i cs) :: rest =>
      rw [List.map_cons, modelsC_cons_node] at hm
      obtain ⟨⟨nd, hd, hch, hcs⟩, hr⟩ := hm
      rw [List.map_cons] at hnh
      rw [forestNoHole, Bool.and_eq_true] at hnh
      rw [List.map_cons, forestIds] at hlen
      have hkeep : (forestKeep cs).map some = cs := (noHole_eq_keep cs hnh.1).symm
      have hmaps : (forestKeep cs).map (fun t => some t.id) = cs.map optId := by
        conv_rhs => rw [← hkeep]
        rw [List.map_map]
        rfl
      have hkept : nd.childrenPtrs.filter Option.isSome = nd.childrenPtrs := by
        rw [hch, filter_map_optId, hmaps]
      have hm' : modelsC h ((rest ++ forestKeep cs).map some) = true := by
        rw [List.map_append, modelsC_append]
        exact ⟨hr, by rw [modelsC_forestKeep]; exact hcs⟩
      have hnh' : forestNoHole ((rest ++ forestKeep cs).map some) = true := by
        rw [List.map_append, forestNoHole_append, Bool.and_eq_true, hkeep]
        exact ⟨hnh.2, hnh.1⟩
      have hlen' : (forestIds ((rest ++ forestKeep cs).map some)).length ≤ n := by
        rw [List.map_append, forestIds_append, forestIds_forestKeep,
          List.length_append]
        rw [List.length_cons, List.length_append] at hlen
        omega
      have hrun := ih h (rest ++ forestKeep cs) hm' hnh' hlen'
      rw [List.map_cons]
      have hd2 : h.deref (RTree.node i cs).id = some nd := hd
      simp only [compressLoop, hd2]
      rw [hkept]
      have hws : h.write (RTree.node i cs).id
          (some { nd with childrenPtrs := nd.childrenPtrs }) = h := Heap.write_self h hd
      rw [hws]
      rw [show (rest.map (fun t => some t.id)) ++ nd.childrenPtrs =
          (rest ++ forestKeep cs).map (fun t => some t.id) from by
        rw [List.map_append, hmaps, hch]]
      exact hrun

theorem compressShapeList_single (t : RTree) :
    compressShapeList [some t] = [some (compressShape t)] := by
  match t with
  | .node i cs => simp [compressShapeList, compressShape]

theorem compressShape_ids (t : RTree) : (compressShape t).ids = t.ids := by
  rw [RTree.ids, RTree.ids, ← compressShapeList_single, compressShapeList_ids]

/-- Master specification of `compress` on a well-formed tree: it succeeds
with no error, rewrites exactly the cells of the tree's nodes by
filtering the null entries out of their children lists (preserving data
and parent pointers), leaves every other cell untouched, and the result
is a well-formed tree of the compressed shape, which has no tombstones. -/
theorem compress_spec {T : Type} {fuel : Nat} {h : Heap T} {tr : GenericTree T} {t : RTree}
    (hwf : WF h tr t) (hfuel : t.ids.length ≤ fuel) :
    ∃ h', compress fuel h tr = some (none, h') ∧
      (∀ i, h'.deref i = if i ∈ t.ids then compressCell (h.deref i) else h.deref i) ∧
      WF h' tr (compressShape t) ∧
      forestNoHole [some (compressShape t)] = true := by
  obtain ⟨hroot, hm, hnodup⟩ := hwf
  have hmc : modelsC h [some t] = true := modelsC_of_modelsF h _ none hm
  obtain ⟨h', hrun, hchar⟩ := compressLoop_spec fuel h [t]
    (by simpa using hmc) (by simpa [RTree.ids] using hnodup)
    (by simpa [RTree.ids] using hfuel)
  have hchar' : ∀ i, h'.deref i = if i ∈ t.ids then compressCell (h.deref i) else h.deref i := by
    intro i
    have := hchar i
    simpa [RTree.ids] using this
  refine ⟨h', ?_, hchar', ⟨?_, ?_, ?_⟩, ?_⟩
  · simp only [compress, hroot]
    simpa using hrun
  · rw [compressShape_id]
    exact hroot
  · rw [← compressShapeList_single]
    refine modelsF_compressShapeList h h' [some t] ?_ none hm
    intro i hi
    rw [hchar' i, if_pos (by rwa [RTree.ids])]
  · rw [compressShape_ids]
    exact hnodup
  · rw [← compressShapeList_single]
    exact forestNoHole_compressShapeList [some t]

/-- On a well-formed tree with no tombstones anywhere, `compress` is the
identity on the heap. -/
theorem compress_id {T : Type} {fuel : Nat} {h : Heap T} {tr : GenericTree T} {t : RTree}
    (hwf : WF h tr t) (hnh : forestNoHole [some t] = true)
    (hfuel : t.ids.length ≤ fuel) :
    compress fuel h tr = some (none, h) := by
  obtain ⟨hroot, hm, _⟩ := hwf
  have hrun := compressLoop_id fuel h [t]
    (by simpa using modelsC_of_modelsF h _ none hm)
    (by simpa using hnh)
    (by simpa [RTree.ids] using hfuel)
  simp only [compress, hroot]
  simpa using hrun

/-! `compress` can never throw: only non-null pointers are enqueued. -/

theorem compressLoop_no_null {T : Type} :
    ∀ (fuel : Nat) (h : Heap T) (q : List (Option Nat)),
      (∀ x ∈ q, x ≠ none) →
      ∀ e h', compressLoop fuel h q = some (e, h') → e = none := by
  intro fuel
  induction fuel with
  | zero =>
    intro h q hq e h' hrun
    match q with
    | [] =>
      simp [compressLoop] at hrun
      exact hrun.1.symm
    | x :: rest => simp [compressLoop] at hrun
  | succ n ih =>
    intro h q hq e h' hrun
    match q with
    | [] =>
      simp [compressLoop] at hrun
      exact hrun.1.symm
    | none :: rest => exact absurd rfl (hq none (List.mem_cons_self _ _))
    | some p :: rest =>
      cases hd : h.deref p with
      | none => simp [compressLoop, hd] at hrun
      | some nd =>
        simp only [compressLoop, hd] at hrun
        refine ih _ _ ?_ e h' hrun
        intro x hx
        rcases List.mem_append.mp hx with hx1 | hx2
        · exact hq x (List.mem_cons_of_mem _ hx1)
        · have hs := List.of_mem_filter hx2
          intro he
          subst he
          simp at hs

/-! The debug-mode behaviour of `Print`. -/

theorem childFrames_corr (d : Nat) (tm : List Bool) :
    ∀ cs : List (Option RTree),
      List.Forall₂ (fun (fr : PrintFrame) (pc : Nat × Option RTree) =>
        fr.1 = optId pc.2 ∧ fr.2.1 = pc.1)
        (childFrames d tm (cs.map optId)) (cs.map (fun c => (d+1, c))) := by
  intro cs
  induction cs with
  | nil => simp [childFrames]
  | cons c rest ih =>
    match rest with
    | [] =>
      simp only [List.map_cons, List.map_nil, childFrames]
      exact List.Forall₂.cons ⟨rfl, rfl⟩ List.Forall₂.nil
    | c2 :: rest' =>
      simp only [List.map_cons, childFrames]
      refine List.Forall₂.cons ⟨rfl, rfl⟩ ?_
      simpa using ih

theorem printLoop_debug {T : Type} (str : T → String) (h : Heap T) :
    ∀ (fuel : Nat) (pend : List (Nat × Option RTree)) (frames : List PrintFrame)
      (os cerr : String),
      List.Forall₂ (fun (fr : PrintFrame) (pc : Nat × Option RTree) =>
        fr.1 = optId pc.2 ∧ fr.2.1 = pc.1) frames pend →
      modelsC h (pend.map Prod.snd) = true →
      forestSize (pend.map Prod.snd) ≤ fuel →
      ∃ L : List (Nat × String),
        printLoop str true h fuel frames os cerr =
          some (os ++ joinAll (L.map fun dl => "Depth: " ++ toString dl.1),
                cerr ++ joinAll (L.map fun dl => " Data: " ++ dl.2 ++ "\n")) := by
  intro fuel
  induction fuel with
  | zero =>
    intro pend frames os cerr hcorr hm hsz
    match pend, hcorr with
    | [], List.Forall₂.nil =>
      exact ⟨[], by simp [printLoop, joinAll]⟩
    | (d, c) :: pend', List.Forall₂.cons h1 h2 =>
      match c with
      | none => simp [forestSize] at hsz
      | some (.node i cs) => simp [forestSize] at hsz
  | succ n ih =>
    intro pend frames os cerr hcorr hm hsz
    match pend, hcorr with
    | [], List.Forall₂.nil =>
      exact ⟨[], by simp [printLoop, joinAll]⟩
    | (d, c) :: pend', @List.Forall₂.cons _ _ _ fr _ frames' _ h1 h2 =>
      obtain ⟨ptr, dd, cm, tm⟩ := fr
      obtain ⟨hptr, hdd⟩ := h1
      simp only at hptr hdd
      subst hdd
      match c with
      | none =>
        subst hptr
        rw [List.map_cons] at hm hsz
        rw [modelsC_cons_hole] at hm
        simp only [forestSize] at hsz
        obtain ⟨L', hrun⟩ := ih pend' frames'
          (os ++ "Depth: " ++ toString dd) (cerr ++ " Data: " ++ "[null]" ++ "\n")
          h2 hm (by omega)
        refine ⟨(dd, "[null]") :: L', ?_⟩
        simp only [printLoop, optId, if_true]
        rw [hrun]
        simp [joinAll, String.append_assoc]
      | some (.node i cs) =>
        subst hptr
        rw [List.map_cons] at hm hsz
        rw [modelsC_cons_node] at hm
        obtain ⟨⟨nd, hd, hch, hcs⟩, hr⟩ := hm
        simp only [forestSize] at hsz
        match cs, hch, hcs, hsz with
        | [], hch, hcs, hsz =>
          have hch0 : nd.childrenPtrs = [] := by rw [hch]; simp
          obtain ⟨L', hrun⟩ := ih pend' frames'
            (os ++ "Depth: " ++ toString dd) (cerr ++ " Data: " ++ str nd.data ++ "\n")
            h2 hr (by simp only [forestSize] at hsz; omega)
          refine ⟨(dd, str nd.data) :: L', ?_⟩
          simp only [printLoop, optId, RTree.id, hd, if_true]
          rw [if_neg (by rw [hch0]; simp)]
          rw [hrun]
          simp [joinAll, String.append_assoc]
        | c1 :: cs', hch, hcs, hsz =>
          have hlen : nd.childrenPtrs.length > 0 := by
            rw [hch]
            simp
          have hcorr' : List.Forall₂ (fun (fr : PrintFrame) (pc : Nat × Option RTree) =>
              fr.1 = optId pc.2 ∧ fr.2.1 = pc.1)
              (childFrames dd tm nd.childrenPtrs ++ frames')
              ((c1 :: cs').map (fun c => (dd+1, c)) ++ pend') := by
            rw [hch]
            exact List.rel_append (childFrames_corr dd tm (c1 :: cs')) h2
          have hm' : modelsC h ((((c1 :: cs').map (fun c => (dd+1, c)) ++ pend')).map Prod.snd) = true := by
            rw [List.map_append, List.map_map]
            rw [modelsC_append]
            constructor
            · show modelsC h ((c1 :: cs').map (Prod.snd ∘ fun c => (dd+1, c))) = true
              simpa using hcs
            · exact hr
          have hsz' : forestSize ((((c1 :: cs').map (fun c => (dd+1, c)) ++ pend')).map Prod.snd) ≤ n := by
            rw [List.map_append, List.map_map]
            rw [forestSize_append]
            have heq2 : ((c1 :: cs').map (Prod.snd ∘ fun c => (dd+1, c))) = c1 :: cs' := by simp
            rw [heq2]
            omega
          obtain ⟨L', hrun⟩ := ih ((c1 :: cs').map (fun c => (dd+1, c)) ++ pend')
            (childFrames dd tm nd.childrenPtrs ++ frames')
            (os ++ "Depth: " ++ toString dd) (cerr ++ " Data: " ++ str nd.data ++ "\n")
            hcorr' hm' hsz'
          refine ⟨(dd, str nd.data) :: L', ?_⟩
          simp only [printLoop, optId, RTree.id, hd, if_true]
          rw [if_pos hlen]
          rw [hrun]
          simp [joinAll, String.append_assoc]

/-!
The claims.
-/

/-- C1: for every well-formed tree and every node in it, `deleteSubtree`
succeeds and frees exactly the cells of the subtree rooted at the target
(no other cell is freed); every cell outside that subtree is unchanged —
except, when the target is not the root, the parent's cell, which keeps
its data and parent pointer and whose children list is unchanged except
that the first slot holding the target becomes a null tombstone (so the
relative order of the surviving children is preserved). -/
theorem c1_deleteSubtree_removes_exactly {T : Type} (str : T → String) {fuel : Nat}
    {h : Heap T} {tr : GenericTree T} {t st : RTree}
    (hwf : WF h tr t) (hin : InTree st t) (hfuel : forestSize [some t] < fuel) :
    ∃ res : DelResult T,
      deleteSubtree str fuel h tr (some st.id) = some res ∧
      res.err = none ∧
      (∀ i ∈ st.ids, res.heap.deref i = none) ∧
      (st.id = t.id → ∀ i, i ∉ st.ids → res.heap.deref i = h.deref i) ∧
      (st.id ≠ t.id →
        ∃ p nd pre post,
          h.deref p = some nd ∧
          nd.childrenPtrs = pre ++ some st.id :: post ∧
          some st.id ∉ pre ∧
          res.heap.deref p = some { nd with childrenPtrs := pre ++ none :: post } ∧
          (∀ i, i ∉ st.ids → i ≠ p → res.heap.deref i = h.deref i)) := by
  obtain ⟨res, h1, h2, -, -, -, -, h7, h8, h9⟩ := deleteSubtree_spec str hwf hin hfuel
  refine ⟨res, h1, h2, h7, h8, ?_⟩
  intro hne
  obtain ⟨p, nd, pre, post, hpd, hsplit, hpre, -, hpderef, hframe⟩ := h9 hne
  exact ⟨p, nd, pre, post, hpd, hsplit, hpre, hpderef, hframe⟩

/-- Witness for C1: deleting the subtree of `B` (address 1, subtree
addresses 1 and 3) from the four-node example tree. -/
theorem c1_witness :
    ∃ res : DelResult String,
      deleteSubtree (fun s => s) 5 heapW treeW (some shapeB.id) = some res ∧
      res.err = none ∧
      (∀ i ∈ shapeB.ids, res.heap.deref i = none) ∧
      (shapeB.id = shapeW.id → ∀ i, i ∉ shapeB.ids → res.heap.deref i = heapW.deref i) ∧
      (shapeB.id ≠ shapeW.id →
        ∃ p nd pre post,
          heapW.deref p = some nd ∧
          nd.childrenPtrs = pre ++ some shapeB.id :: post ∧
          some shapeB.id ∉ pre ∧
          res.heap.deref p = some { nd with childrenPtrs := pre ++ none :: post } ∧
          (∀ i, i ∉ shapeB.ids → i ≠ p → res.heap.deref i = heapW.deref i)) :=
  c1_deleteSubtree_removes_exactly (fun s => s)
    (⟨rfl, by simp [shapeW, heapW, modelsF, Heap.deref, lookupCell, optId, RTree.id],
      by simp [shapeW, RTree.ids, forestIds]⟩)
    (InTree.child (List.mem_cons_self _ _) (InTree.refl _))
    (by simp [shapeW, forestSize])

/-- C2: deleting a node that belongs to a different tree (its ancestor
walk ends at a root other than this tree's) fails with the cross-tree
error and changes nothing: the result carries the original heap and tree
object, no trace, no released node. -/
theorem c2_crossTree_unchanged {T : Type} (str : T → String) {fuel : Nat} {h : Heap T}
    {trA trB : GenericTree T} {tb st : RTree}
    (hwfB : WF h trB tb) (hin : InTree st tb)
    (hne : trA.rootNodePtr ≠ some tb.id)
    (hfuel : forestSize [some tb] < fuel) :
    deleteSubtree str fuel h trA (some st.id) =
      some ⟨some .crossTree, h, trA, [], []⟩ := by
  obtain ⟨-, hm, -⟩ := hwfB
  have hwb := walkBack_reaches h hm hin fuel hfuel
  simp only [deleteSubtree, hwb]
  rw [if_neg hne]

/-- Witness for C2: tree `A` (root at 0) and tree `B` (root at 1 with
child 2) in one heap; deleting node 2 through `A` fails. -/
theorem c2_witness :
    deleteSubtree (fun s => s) 4 heap2 treeA2 (some (RTree.node 2 []).id) =
      some ⟨some .crossTree, heap2, treeA2, [], []⟩ :=
  @c2_crossTree_unchanged String (fun s => s) 4 heap2 treeA2 treeB2 shapeB2
    (RTree.node 2 [])
    (⟨rfl, by simp [shapeB2, heap2, modelsF, Heap.deref, lookupCell, optId, RTree.id],
      by simp [shapeB2, RTree.ids, forestIds]⟩)
    (InTree.child (List.mem_cons_self _ _) (InTree.refl _))
    (by simp [treeA2, shapeB2, RTree.id])
    (by simp [shapeB2, forestSize])

/-- C3: `clear` (and hence the destructor) on a well-formed tree
succeeds, passes each owned node to `delete` exactly once (`released` has
no duplicates and covers exactly the tree's addresses), frees exactly
those cells, and leaves the tree empty.  The release list is computed by
the enumeration pass over the intact structure before any node is freed;
a premature release would make the model's release loop fail. -/
theorem c3_clear_releases_each_once {T : Type} (str : T → String) {fuel : Nat}
    {h : Heap T} {tr : GenericTree T} {t : RTree}
    (hwf : WF h tr t) (hfuel : forestSize [some t] < fuel) :
    ∃ res : DelResult T,
      GenericTree.clear str fuel h tr = some res ∧
      res.err = none ∧
      res.tree.rootNodePtr = none ∧
      res.released.Nodup ∧
      (∀ i, i ∈ res.released ↔ i ∈ t.ids) ∧
      (∀ i ∈ t.ids, res.heap.deref i = none) ∧
      (∀ i, i ∉ t.ids → res.heap.deref i = h.deref i) := by
  have hroot := hwf.1
  obtain ⟨res, h1, h2, h3, -, h5, h6, h7, h8, -⟩ :=
    deleteSubtree_spec str hwf (InTree.refl t) hfuel
  have htreeroot : res.tree.rootNodePtr = none := by rw [h3]; simp
  refine ⟨res, ?_, h2, htreeroot, h5, h6, h7, fun i hi => h8 rfl i hi⟩
  simp only [GenericTree.clear, hroot, h1]
  rw [show res.err.isSome = false from by rw [h2]; rfl]
  simp [htreeroot]

/-- Witness for C3: clearing the four-node example tree. -/
theorem c3_witness :
    ∃ res : DelResult String,
      GenericTree.clear (fun s => s) 5 heapW treeW = some res ∧
      res.err = none ∧
      res.tree.rootNodePtr = none ∧
      res.released.Nodup ∧
      (∀ i, i ∈ res.released ↔ i ∈ shapeW.ids) ∧
      (∀ i ∈ shapeW.ids, res.heap.deref i = none) ∧
      (∀ i, i ∉ shapeW.ids → res.heap.deref i = heapW.deref i) :=
  c3_clear_releases_each_once (fun s => s)
    (⟨rfl, by simp [shapeW, heapW, modelsF, Heap.deref, lookupCell, optId, RTree.id],
      by simp [shapeW, RTree.ids, forestIds]⟩)
    (by simp [shapeW, forestSize])

/-- C5: deleting the root of a well-formed tree empties it (`getRootPtr`
afterwards yields `none`); deleting any non-root node leaves the root
pointer unchanged, still pointing at the same (still allocated) root
cell. -/
theorem c5_root_deletion_vs_nonroot {T : Type} (str : T → String) {fuel : Nat}
    {h : Heap T} {tr : GenericTree T} {t st : RTree}
    (hwf : WF h tr t) (hin : InTree st t) (hfuel : forestSize [some t] < fuel) :
    ∃ res : DelResult T,
      deleteSubtree str fuel h tr (some st.id) = some res ∧
      res.err = none ∧
      (st.id = t.id → res.tree.rootNodePtr = none) ∧
      (st.id ≠ t.id →
        res.tree.rootNodePtr = tr.rootNodePtr ∧
        res.tree.rootNodePtr = some t.id ∧
        (res.heap.deref t.id).isSome) := by
  obtain ⟨res, h1, h2, h3, -, -, -, -, -, h9⟩ := deleteSubtree_spec str hwf hin hfuel
  refine ⟨res, h1, h2, ?_, ?_⟩
  · intro heq
    rw [h3, if_pos heq]
  · intro hne
    have hrootptr : res.tree.rootNodePtr = tr.rootNodePtr := by
      rw [h3, if_neg hne]
    have hnotin : t.id ∉ st.ids := by
      rcases inTree_parent h hin none hwf.2.1 with heq | ⟨p', pcs', hpt', hmem', -⟩
      · exact absurd (by rw [heq]) hne
      · exact (target_sub_root hwf.2.2 hpt' hmem').1
    obtain ⟨p, nd, pre, post, hpd, -, -, -, hpderef, hframe⟩ := h9 hne
    refine ⟨hrootptr, by rw [hrootptr, hwf.1], ?_⟩
    by_cases hp : t.id = p
    · subst hp
      rw [hpderef]
      rfl
    · rw [hframe t.id hnotin hp]
      have hmc : modelsC h [some t] = true := modelsC_of_modelsF h _ none hwf.2.1
      exact modelsC_deref_isSome h _ hmc t.id (by rw [← RTree.ids]; exact self_mem_ids t)
/-- Witness for C5: deleting `B`'s subtree from the four-node tree (a
non-root deletion). -/
theorem c5_witness :
    ∃ res : DelResult String,
      deleteSubtree (fun s => s) 5 heapW treeW (some shapeB.id) = some res ∧
      res.err = none ∧
      (shapeB.id = shapeW.id → res.tree.rootNodePtr = none) ∧
      (shapeB.id ≠ shapeW.id →
        res.tree.rootNodePtr = treeW.rootNodePtr ∧
        res.tree.rootNodePtr = some shapeW.id ∧
        (res.heap.deref shapeW.id).isSome) :=
  c5_root_deletion_vs_nonroot (fun s => s)
    (⟨rfl, by simp [shapeW, heapW, modelsF, Heap.deref, lookupCell, optId, RTree.id],
      by simp [shapeW, RTree.ids, forestIds]⟩)
    (InTree.child (List.mem_cons_self _ _) (InTree.refl _))
    (by simp [shapeW, forestSize])

/-- C4: on every well-formed tree (i.e. any state reachable by
constructions and deletions), `compress` succeeds, and afterwards every
node of the tree is still allocated with the same data and the same
parent, its children list is its old list with the null tombstones
filtered out (so no tombstone remains anywhere and the relative order of
surviving children is preserved), and no other cell is touched. -/
theorem c4_compress_removes_tombstones {T : Type} {fuel : Nat} {h : Heap T}
    {tr : GenericTree T} {t : RTree}
    (hwf : WF h tr t) (hfuel : t.ids.length ≤ fuel) :
    ∃ h', compress fuel h tr = some (none, h') ∧
      (∀ i ∈ t.ids, ∃ nd nd', h.deref i = some nd ∧ h'.deref i = some nd' ∧
        nd'.data = nd.data ∧ nd'.parentPtr = nd.parentPtr ∧
        nd'.childrenPtrs = nd.childrenPtrs.filter Option.isSome ∧
        ∀ c ∈ nd'.childrenPtrs, c ≠ none) ∧
      (∀ i, i ∉ t.ids → h'.deref i = h.deref i) := by
  obtain ⟨h', hrun, hchar, -, -⟩ := compress_spec hwf hfuel
  refine ⟨h', hrun, ?_, ?_⟩
  · intro i hi
    have hmc : modelsC h [some t] = true := modelsC_of_modelsF h _ none hwf.2.1
    have hsome : (h.deref i).isSome :=
      modelsC_deref_isSome h _ hmc i (by rw [← RTree.ids]; exact hi)
    obtain ⟨nd, hd⟩ := Option.isSome_iff_exists.mp hsome
    refine ⟨nd, { nd with childrenPtrs := nd.childrenPtrs.filter Option.isSome },
      hd, ?_, rfl, rfl, rfl, ?_⟩
    · rw [hchar i, if_pos hi, hd]
      rfl
    · intro c hc
      have hs := List.of_mem_filter hc
      intro he
      subst he
      simp at hs
  · intro i hi
    rw [hchar i, if_neg hi]

/-- Witness for C4: compressing the tree `A(0) -> [tombstone, C(2)]`. -/
theorem c4_witness :
    ∃ h', compress 3 heapV treeV = some (none, h') ∧
      (∀ i ∈ shapeV.ids, ∃ nd nd', heapV.deref i = some nd ∧ h'.deref i = some nd' ∧
        nd'.data = nd.data ∧ nd'.parentPtr = nd.parentPtr ∧
        nd'.childrenPtrs = nd.childrenPtrs.filter Option.isSome ∧
        ∀ c ∈ nd'.childrenPtrs, c ≠ none) ∧
      (∀ i, i ∉ shapeV.ids → h'.deref i = heapV.deref i) :=
  c4_compress_removes_tombstones
    (⟨rfl, by simp [shapeV, heapV, modelsF, Heap.deref, lookupCell, optId, RTree.id],
      by simp [shapeV, RTree.ids, forestIds]⟩)
    (by simp [shapeV, RTree.ids, forestIds])

/-- C6: when the target has a parent but is not listed among that
parent's children (while still walking back to this tree's root), the
call fails with the corruption error and performs no detach and no
release: the result carries the untouched heap and tree. -/
theorem c6_missing_child_corruption {T : Type} (str : T → String) {fuel : Nat}
    {h : Heap T} {tr : GenericTree T} {target par r : Nat} {tnd pnd : TreeNode T}
    (hwb : walkBack h fuel target = some r)
    (hroot : tr.rootNodePtr = some r)
    (htd : h.deref target = some tnd)
    (hpar : tnd.parentPtr = some par)
    (hpd : h.deref par = some pnd)
    (hnotin : some target ∉ pnd.childrenPtrs) :
    deleteSubtree str fuel h tr (some target) =
      some ⟨some .notAChild, h, tr, [], []⟩ := by
  simp only [deleteSubtree, hwb, hroot, if_true]
  simp only [htd, hpar, hpd]
  rw [detachChild_eq_none.mpr hnotin]

/-- Witness for C6: a corrupted two-node heap where the root's child slot
is a tombstone although node 1 still names the root as parent. -/
theorem c6_witness :
    deleteSubtree (fun s => s) 2 heapC treeC (some 1) =
      some ⟨some .notAChild, heapC, treeC, [], []⟩ :=
  c6_missing_child_corruption (fun s => s)
    (by rfl) (by rfl) (by rfl) (by rfl) (by rfl) (by decide)

/-- C7: `Print` on an empty tree yields exactly the fixed marker line for
every fuel (it cannot fail there), and on a single-root tree with value
`"X"` yields exactly the single line `"X"` with no indentation, with
nothing on the diagnostic stream in either case. -/
theorem c7_render_empty_and_single :
    (∀ fuel : Nat,
      Print (fun s => s) fuel emptyHeap emptyTree = some ("[empty tree]\n", "")) ∧
    Print (fun s => s) 1 heapX treeX = some ("X\n", "") :=
  ⟨fun _ => rfl, rfl⟩

/-- C8: `compress` is idempotent on every well-formed tree: the second
run returns the exact same heap the first run produced. -/
theorem c8_compress_idempotent {T : Type} {fuel : Nat} {h : Heap T}
    {tr : GenericTree T} {t : RTree}
    (hwf : WF h tr t) (hfuel : t.ids.length ≤ fuel) :
    ∃ h1, compress fuel h tr = some (none, h1) ∧
      compress fuel h1 tr = some (none, h1) := by
  obtain ⟨h1, hrun, -, hwf', hnh⟩ := compress_spec hwf hfuel
  refine ⟨h1, hrun, ?_⟩
  exact compress_id hwf' hnh (by rw [compressShape_ids]; exact hfuel)

/-- Witness for C8: compressing the tombstone example twice. -/
theorem c8_witness :
    ∃ h1, compress 3 heapV treeV = some (none, h1) ∧
      compress 3 h1 treeV = some (none, h1) :=
  @c8_compress_idempotent String 3 heapV treeV shapeV
    (⟨rfl, by simp [shapeV, heapV, modelsF, Heap.deref, lookupCell, optId, RTree.id],
      by simp [shapeV, RTree.ids, forestIds]⟩)
    (by simp [shapeV, RTree.ids, forestIds])

/-- C10: `compress` can never throw: whenever a run completes, its error
component is `none` — in particular the defensive null-dequeue corruption
branch is unreachable, because the root pushed initially and the
children pushed during the sweep are all non-null. -/
theorem c10_compress_never_throws {T : Type} (fuel : Nat) (h : Heap T)
    (tr : GenericTree T) :
    ∀ e h', compress fuel h tr = some (e, h') → e = none := by
  intro e h' hrun
  match hr : tr.rootNodePtr with
  | none =>
    simp [compress, hr] at hrun
    exact hrun.1.symm
  | some r =>
    simp only [compress, hr] at hrun
    refine compressLoop_no_null fuel h [some r] ?_ e h' hrun
    intro x hx
    rw [List.mem_singleton] at hx
    subst hx
    simp

/-- Witness for C10: a completed compression run of the tombstone
example reports no error. -/
theorem c10_witness :
    compress 3 heapV treeV = some (none, heapVc) ∧
    (none : Option TreeError) = none :=
  ⟨by rfl, c10_compress_never_throws 3 heapV treeV none heapVc (by rfl)⟩

/-- Counterexample for C9 as stated: with debugging enabled, `Print` on a
single-node tree writes the trace text `"Depth: 0"` to the primary
rendering stream (`os`), not to the diagnostic stream — so part of the
debug trace does go to the primary rendering output. -/
theorem c9_counterexample :
    Print (fun s => s) 1 heapX ⟨true, some 0⟩ = some ("Depth: 0", " Data: X\n") ∧
    ("Depth: 0" : String) ≠ "" :=
  ⟨rfl, by decide⟩

/-- C9 (amended): `deleteSubtree` and `clear` emit their debug trace only
to the diagnostic stream (in the model their sole output channel is the
`std::cerr` log carried in `DelResult`), while `Print`'s debug listing is
split per visited node: the `"Depth: <n>"` half of each line goes to the
primary rendering stream and the `" Data: <value>"` half (value or the
null marker) goes to the diagnostic stream. -/
theorem c9_debug_trace_split {T : Type} (str : T → String) {fuel : Nat}
    {h : Heap T} {tr : GenericTree T} {t : RTree}
    (hwf : WF h tr t) (hdbg : tr.showDebugMessages = true)
    (hfuel : forestSize [some t] ≤ fuel) :
    ∃ L : List (Nat × String),
      Print str fuel h tr = some
        (joinAll (L.map fun dl => "Depth: " ++ toString dl.1),
         joinAll (L.map fun dl => " Data: " ++ dl.2 ++ "\n")) := by
  obtain ⟨hroot, hm, -⟩ := hwf
  have hmc : modelsC h [some t] = true := modelsC_of_modelsF h _ none hm
  obtain ⟨L, hrun⟩ := printLoop_debug str h fuel [(0, some t)] [(some t.id, 0, [], [])] "" ""
    (List.Forall₂.cons ⟨rfl, rfl⟩ List.Forall₂.nil) (by simpa using hmc)
    (by simpa using hfuel)
  refine ⟨L, ?_⟩
  simp only [Print, hroot, hdbg]
  simpa using hrun

/-- Witness for the amended C9: the four-node example tree with the
debug flag set. -/
theorem c9_witness :
    ∃ L : List (Nat × String),
      Print (fun s => s) 9 heapW ⟨true, some shapeW.id⟩ = some
        (joinAll (L.map fun dl => "Depth: " ++ toString dl.1),
         joinAll (L.map fun dl => " Data: " ++ dl.2 ++ "\n")) :=
  c9_debug_trace_split (fun s => s)
    (⟨rfl, by simp [shapeW, heapW, modelsF, Heap.deref, lookupCell, optId, RTree.id],
      by simp [shapeW, RTree.ids, forestIds]⟩)
    (by rfl)
    (by simp [shapeW, forestSize])
